import Mathlib

set_option maxHeartbeats 1000000

namespace NotaSpec

/-- JS scalar values that can sit at the leaves of a data tree. `undef` is the
JavaScript `undefined` sentinel and `null` the JavaScript `null`. -/
inductive Val where
  | str (s : String)
  | num (n : Int)
  | boolean (b : Bool)
  | null
  | undef
deriving DecidableEq, Repr

/-- A JS data tree: a scalar leaf, an insertion-ordered key-value map (plain
object), or an index-ordered list (array).  Array slots are `Option Tree`
so that array holes (`delete arr[i]`) are representable; `none` is a hole. -/
inductive Tree where
  | leaf (v : Val)
  | map (entries : List (String × Tree))
  | arr (items : List (Option Tree))
deriving Repr

mutual

/-- Structural (deep) equality test on trees. -/
def Tree.beq : Tree → Tree → Bool
  | .leaf a, .leaf b => a == b
  | .map a, .map b => beqEntries a b
  | .arr a, .arr b => beqItems a b
  | _, _ => false

/-- Deep equality on map entry lists (key order matters, as in JS objects). -/
def beqEntries : List (String × Tree) → List (String × Tree) → Bool
  | [], [] => true
  | (k, t) :: r, (k', t') :: r' => k == k' && Tree.beq t t' && beqEntries r r'
  | _, _ => false

/-- Deep equality on array item lists (holes compare equal only to holes). -/
def beqItems : List (Option Tree) → List (Option Tree) → Bool
  | [], [] => true
  | none :: r, none :: r' => beqItems r r'
  | some t :: r, some t' :: r' => Tree.beq t t' && beqItems r r'
  | _, _ => false

end

mutual

theorem Tree.beq_iff : ∀ a b : Tree, Tree.beq a b = true ↔ a = b
  | .leaf a, .leaf b => by
      simp [Tree.beq]
  | .leaf _, .map _ => by simp [Tree.beq]
  | .leaf _, .arr _ => by simp [Tree.beq]
  | .map _, .leaf _ => by simp [Tree.beq]
  | .map a, .map b => by
      simp [Tree.beq, beqEntries_iff a b]
  | .map _, .arr _ => by simp [Tree.beq]
  | .arr _, .leaf _ => by simp [Tree.beq]
  | .arr _, .map _ => by simp [Tree.beq]
  | .arr a, .arr b => by
      simp [Tree.beq, beqItems_iff a b]

theorem beqEntries_iff : ∀ a b : List (String × Tree), beqEntries a b = true ↔ a = b
  | [], [] => by simp [beqEntries]
  | [], _ :: _ => by simp [beqEntries]
  | _ :: _, [] => by simp [beqEntries]
  | (k, t) :: r, (k', t') :: r' => by
      simp [beqEntries, Tree.beq_iff t t', beqEntries_iff r r', and_assoc]

theorem beqItems_iff : ∀ a b : List (Option Tree), beqItems a b = true ↔ a = b
  | [], [] => by simp [beqItems]
  | [], _ :: _ => by simp [beqItems]
  | _ :: _, [] => by simp [beqItems]
  | none :: r, none :: r' => by simp [beqItems, beqItems_iff r r']
  | none :: _, some _ :: _ => by simp [beqItems]
  | some _ :: _, none :: _ => by simp [beqItems]
  | some t :: r, some t' :: r' => by
      simp [beqItems, Tree.beq_iff t t', beqItems_iff r r']

end

instance : BEq Tree := ⟨Tree.beq⟩

instance : LawfulBEq Tree where
  eq_of_beq h := (Tree.beq_iff _ _).1 h
  rfl := by intro a; exact (Tree.beq_iff a a).2 rfl

instance : DecidableEq Tree := fun a b =>
  decidable_of_iff (Tree.beq a b = true) (Tree.beq_iff a b)

/-! ## Notation paths

A notation path is a non-empty sequence of notes.  `utils.normalizeNote`
(src/src/core/notation.js uses it in `inspectGet`, `inspectRemove` and `set`)
turns a bracketed digit note `[3]` into the number `3` and any other note into
its string key.  We embed paths directly as lists of normalized notes. -/

/-- A normalized note: either a string key or a numeric array index. -/
inductive NNote where
  | key (s : String)
  | idx (n : Nat)
deriving DecidableEq, Repr, Inhabited

/-- JS property coercion: accessing a plain object with a numeric note uses the
decimal string of the number (`obj[3]` reads key `"3"`). -/
def NNote.keyStr : NNote → String
  | .key s => s
  | .idx n => toString n

/-- Whether the normalized note is a numeric index (`typeof n === 'number'`). -/
def NNote.isIdx : NNote → Bool
  | .key _ => false
  | .idx _ => true

/-! ## Elementary tree operations

`utils.hasOwn`, `utils.type` and plain JS member reads/writes are external
collaborators (src/utils is not part of the core sources).  Modelled from the
spec: §9 prescribes replacing reflective own-property checks with "an explicit
'defined key set' query against the map/list abstraction", never consulting
inherited members; so scalars have no own members and array holes are not own
members. -/

/-- Lookup of a key in an insertion-ordered map (first occurrence). -/
def mapFind : List (String × Tree) → String → Option Tree
  | [], _ => none
  | e :: r, k => if e.1 == k then some e.2 else mapFind r k

/-- `utils.type`: the coarse JS type tag of a tree. -/
def Tree.jsType : Tree → String
  | .leaf (.str _) => "string"
  | .leaf (.num _) => "number"
  | .leaf (.boolean _) => "boolean"
  | .leaf .null => "null"
  | .leaf .undef => "undefined"
  | .map _ => "object"
  | .arr _ => "array"

/-- Whether the tree is an array. -/
def Tree.isArrayT : Tree → Bool
  | .arr _ => true
  | _ => false

/-- `utils.isCollection`: object or array. -/
def Tree.isCollection : Tree → Bool
  | .map _ => true
  | .arr _ => true
  | _ => false

/-- `utils.hasOwn level note`: defined own-member test.  Maps coerce numeric
notes to their decimal string key; array holes and out-of-range indices are
absent; scalars have no members. -/
def Tree.hasOwnN : Tree → NNote → Bool
  | .map m, n => (mapFind m n.keyStr).isSome
  | .arr a, .idx i =>
      match a[i]? with
      | some (some _) => true
      | _ => false
  | _, _ => false

/-- Member read `level[note]` (JS yields `undefined` when absent). -/
def Tree.childN : Tree → NNote → Tree
  | .map m, n => (mapFind m n.keyStr).getD (.leaf .undef)
  | .arr a, .idx i =>
      match a[i]? with
      | some (some t) => t
      | _ => .leaf .undef
  | _, _ => .leaf (Val.undef : Val)

/-- Map member write `obj[k] = v`: overwrite in place if the key exists
(keeping its insertion position), otherwise append. -/
def mapSet (m : List (String × Tree)) (k : String) (v : Tree) : List (String × Tree) :=
  if (mapFind m k).isSome then
    m.map (fun e => if e.1 == k then (k, v) else e)
  else m ++ [(k, v)]

/-- Array member write `arr[i] = v`: overwrite in range, otherwise extend the
array to index `i`, padding the gap with holes (JS sparse-array semantics). -/
def arrSet (a : List (Option Tree)) (i : Nat) (v : Tree) : List (Option Tree) :=
  if i < a.length then a.set i (some v)
  else a ++ List.replicate (i - a.length) none ++ [some v]

/-- Member write `level[note] = v` on a container (callers guard the scalar
case, where strict-mode JS raises a `TypeError`). -/
def Tree.assignN : Tree → NNote → Tree → Tree
  | .map m, n, v => .map (mapSet m n.keyStr v)
  | .arr a, .idx i, v => .arr (arrSet a i v)
  | t, _, _ => t

/-! ## inspectGet (src/src/core/notation.js lines 308-344)

The JS loop keeps three mutable cells: `level` (the value reached so far),
`parent` (reassigned to `level` after each successful step; starts out as the
JS `undefined` value), and `result` (rebuilt on every iteration, so its final
value comes from the iteration that broke out, or the last one).  The model
threads those cells through a recursion over the remaining notes.  `lastNote`
keeps the normalized note (the code also records the raw spelling, which the
claims never consult). -/

/-- The inspection result object (`Notation~InspectResult`).  A result built
in the `has:false` branch carries no `value` member, which a JS read turns
into `undefined`; the model makes that explicit with `Tree.leaf .undef`. -/
structure InspectRes where
  has : Bool := false
  value : Tree := .leaf .undef
  type : String := "undefined"
  level : Nat := 0
  lastNote : Option NNote := none
  parentIsArray : Bool := false
deriving DecidableEq, Repr

/-- The `Notation.eachNote` loop body of `inspectGet`.  Returns the final
`result` together with the final `parent` cell. -/
def inspectLoop : Tree → Tree → InspectRes → Nat → List NNote → InspectRes × Tree
  | _, parent, res, _, [] => (res, parent)
  | level, parent, _, i, n :: rest =>
      if level.hasOwnN n then
        let child := level.childN n
        inspectLoop child child
          { has := true, value := child, type := child.jsType,
            level := i + 1, lastNote := some n, parentIsArray := false }
          (i + 1) rest
      else
        ({ has := false, value := .leaf .undef, type := "undefined",
           level := i + 1, lastNote := some n, parentIsArray := false }, parent)

/-- `Notation#inspectGet`.  After the walk, `parent` is replaced by the source
when it is still the `undefined` sentinel or when the whole path resolved
(`result.has && parent === result.value`), and `parentIsArray` is derived
from it. -/
def inspectGetN (src : Tree) (notes : List NNote) : InspectRes :=
  match inspectLoop src (.leaf .undef) {} 0 notes with
  | (res, parent) =>
      let par := if parent == Tree.leaf .undef || (res.has && parent == res.value)
                 then src else parent
      { res with parentIsArray := par.isArrayT }

/-! ## Options, errors, get/has/hasDefined -/

/-- Accessor options (`DEFAULT_OPTS`, src/src/core/notation.js lines 35-38). -/
structure Opts where
  strict : Bool := false
  preserveIndices : Bool := false
deriving DecidableEq, Repr

/-- The distinguished error kinds raised by the core (spec §7).  `typeError`
stands for the TypeError strict-mode JS raises when a property is written on a
scalar. -/
inductive Err where
  | invalidSource
  | invalidSyntax
  | missingIndex
  | missingProperty
  | typeMismatch
  | insertOnNonList
  | integrityError
  | typeError
  | invalidNotationsObject
deriving DecidableEq, Repr

/-- `Notation#get` (src/src/core/notation.js lines 495-504).  `deflt = none`
models calling `get` with a single argument (`arguments.length < 2`); passing
an explicit `undefined` default is `some (.leaf .undef)`. -/
def getN (o : Opts) (src : Tree) (notes : List NNote) (deflt : Option Tree) :
    Except Err Tree :=
  let r := inspectGetN src notes
  if o.strict && deflt.isNone && !r.has then
    .error (if r.parentIsArray then .missingIndex else .missingProperty)
  else
    .ok (if r.has then r.value else deflt.getD (.leaf .undef))

/-- `Notation#has` (lines 451-453). -/
def hasN (src : Tree) (notes : List NNote) : Bool :=
  (inspectGetN src notes).has

/-- `Notation#hasDefined` (lines 467-469): `inspectGet(notation).value !== undefined`. -/
def hasDefinedN (src : Tree) (notes : List NNote) : Bool :=
  (inspectGetN src notes).value != Tree.leaf (Val.undef : Val)

/-- Specification-level path resolution: follow defined members; `none` when
some note along the way is absent. -/
def resolve : Tree → List NNote → Option Tree
  | t, [] => some t
  | t, n :: rest => if t.hasOwnN n then resolve (t.childN n) rest else none

/-- Specification-level parent of the first missing note: the value reached by
the longest proper resolving segment of the walk (the source itself when the
walk fails, or ends, at the first note). -/
def resolvedParent : Tree → List NNote → Tree
  | t, [] => t
  | t, n :: rest =>
      if t.hasOwnN n then
        match rest with
        | [] => t
        | _ => resolvedParent (t.childN n) rest
      else t

/-! ## Lemmas about the inspectGet loop -/

theorem inspectLoop_cons (level parent : Tree) (res : InspectRes) (i : Nat)
    (n : NNote) (rest : List NNote) :
    inspectLoop level parent res i (n :: rest) =
      if level.hasOwnN n then
        inspectLoop (level.childN n) (level.childN n)
          { has := true, value := level.childN n, type := (level.childN n).jsType,
            level := i + 1, lastNote := some n, parentIsArray := false }
          (i + 1) rest
      else
        ({ has := false, value := .leaf .undef, type := "undefined",
           level := i + 1, lastNote := some n, parentIsArray := false }, parent) := rfl

theorem resolve_cons (t : Tree) (n : NNote) (rest : List NNote) :
    resolve t (n :: rest) = if t.hasOwnN n then resolve (t.childN n) rest else none := rfl

theorem resolvedParent_single (t : Tree) (n : NNote) : resolvedParent t [n] = t := by
  by_cases hc : t.hasOwnN n <;> simp [resolvedParent, hc]

theorem resolvedParent_cons_cons (t : Tree) (n m : NNote) (rest : List NNote) :
    resolvedParent t (n :: m :: rest) =
      if t.hasOwnN n then resolvedParent (t.childN n) (m :: rest) else t := rfl

theorem inspectLoop_val_of_not_has :
    ∀ (level parent : Tree) (res : InspectRes) (i : Nat) (notes : List NNote),
      (res.has = false → res.value = .leaf .undef) →
      (inspectLoop level parent res i notes).1.has = false →
      (inspectLoop level parent res i notes).1.value = .leaf .undef := by
  intro level parent res i notes
  induction notes generalizing level parent res i with
  | nil =>
      intro h hf
      exact h hf
  | cons n rest ih =>
      intro h hf
      by_cases hc : level.hasOwnN n
      · rw [inspectLoop_cons, if_pos hc] at hf ⊢
        exact ih _ _ _ _ (by intro hh; simp at hh) hf
      · rw [inspectLoop_cons, if_neg hc]

theorem inspectLoop_has :
    ∀ (level parent : Tree) (res : InspectRes) (i : Nat) (n : NNote) (rest : List NNote),
      (inspectLoop level parent res i (n :: rest)).1.has
        = (resolve level (n :: rest)).isSome := by
  intro level parent res i n rest
  induction rest generalizing level parent res i n with
  | nil =>
      by_cases hc : level.hasOwnN n
      · rw [inspectLoop_cons, if_pos hc, resolve_cons, if_pos hc]
        rfl
      · rw [inspectLoop_cons, if_neg hc,
          resolve_cons, if_neg hc]
        rfl
  | cons m rest' ih =>
      by_cases hc : level.hasOwnN n
      · rw [inspectLoop_cons, if_pos hc, resolve_cons, if_pos hc]
        exact ih _ _ _ _ _
      · rw [inspectLoop_cons, if_neg hc,
          resolve_cons, if_neg hc]
        rfl

theorem inspectLoop_value :
    ∀ (level parent : Tree) (res : InspectRes) (i : Nat) (n : NNote) (rest : List NNote)
      (u : Tree),
      resolve level (n :: rest) = some u →
      (inspectLoop level parent res i (n :: rest)).1.value = u := by
  intro level parent res i n rest
  induction rest generalizing level parent res i n with
  | nil =>
      intro u hu
      by_cases hc : level.hasOwnN n
      · rw [resolve_cons, if_pos hc] at hu
        rw [inspectLoop_cons, if_pos hc]
        injection hu with hu'
      · rw [resolve_cons, if_neg hc] at hu
        exact absurd hu (by simp)
  | cons m rest' ih =>
      intro u hu
      by_cases hc : level.hasOwnN n
      · rw [resolve_cons, if_pos hc] at hu
        rw [inspectLoop_cons, if_pos hc]
        exact ih _ _ _ _ _ _ hu
      · rw [resolve_cons, if_neg hc] at hu
        exact absurd hu (by simp)

theorem inspectLoop_parent :
    ∀ (level parent : Tree) (res : InspectRes) (i : Nat) (n : NNote) (rest : List NNote),
      (inspectLoop level parent res i (n :: rest)).1.has = false →
      (inspectLoop level parent res i (n :: rest)).2 =
        if level.hasOwnN n then resolvedParent level (n :: rest) else parent := by
  intro level parent res i n rest
  induction rest generalizing level parent res i n with
  | nil =>
      intro hf
      by_cases hc : level.hasOwnN n
      · rw [inspectLoop_cons, if_pos hc] at hf
        simp [inspectLoop] at hf
      · rw [inspectLoop_cons, if_neg hc,
          if_neg hc]
  | cons m rest' ih =>
      intro hf
      by_cases hc : level.hasOwnN n
      · rw [inspectLoop_cons, if_pos hc] at hf ⊢
        rw [if_pos hc, ih _ _ _ _ _ hf]
        rw [resolvedParent_cons_cons, if_pos hc]
        by_cases hcm : (level.childN n).hasOwnN m
        · rw [if_pos hcm]
        · rw [if_neg hcm]
          cases rest' with
          | nil => rw [resolvedParent_single]
          | cons p q =>
              rw [resolvedParent_cons_cons,
                if_neg hcm]
      · rw [inspectLoop_cons, if_neg hc,
          if_neg hc]

theorem jsType_object_not_array (t : Tree) (h : t.jsType = "object") :
    t.isArrayT = false := by
  cases t with
  | leaf v => cases v <;> simp [Tree.isArrayT]
  | map m => simp [Tree.isArrayT]
  | arr a => simp [Tree.jsType] at h

theorem jsType_object_is_map (t : Tree) (h : t.jsType = "object") :
    ∃ m, t = Tree.map m := by
  cases t with
  | leaf v => cases v <;> simp [Tree.jsType] at h
  | map m => exact ⟨m, rfl⟩
  | arr a => simp [Tree.jsType] at h

/-- Reading the fields of `inspectGetN` in terms of the loop. -/
theorem inspectGetN_has (src : Tree) (notes : List NNote) :
    (inspectGetN src notes).has = (inspectLoop src (.leaf .undef) {} 0 notes).1.has := rfl

theorem inspectGetN_value (src : Tree) (notes : List NNote) :
    (inspectGetN src notes).value = (inspectLoop src (.leaf .undef) {} 0 notes).1.value := rfl

theorem inspectGetN_pia (src : Tree) (notes : List NNote) :
    (inspectGetN src notes).parentIsArray =
      (if (inspectLoop src (.leaf .undef) {} 0 notes).2 == Tree.leaf .undef
          || ((inspectLoop src (.leaf .undef) {} 0 notes).1.has
              && (inspectLoop src (.leaf .undef) {} 0 notes).2
                  == (inspectLoop src (.leaf .undef) {} 0 notes).1.value)
       then src else (inspectLoop src (.leaf .undef) {} 0 notes).2).isArrayT := rfl

/-- When the walk fails, `parentIsArray` of the result agrees with the
list-ness of the specification-level resolved parent, in the two directions
needed by the claim. -/
theorem inspectGetN_parentIsArray (src : Tree) (n : NNote) (rest : List NNote)
    (hf : (inspectGetN src (n :: rest)).has = false) :
    ((resolvedParent src (n :: rest)).isArrayT = true →
        (inspectGetN src (n :: rest)).parentIsArray = true)
    ∧ ((resolvedParent src (n :: rest)).jsType = "object" →
        (inspectGetN src (n :: rest)).parentIsArray = false) := by
  rw [inspectGetN_has] at hf
  have hpar := inspectLoop_parent src (.leaf .undef) {} 0 n rest hf
  by_cases hc : src.hasOwnN n
  · rw [if_pos hc] at hpar
    by_cases hu : resolvedParent src (n :: rest) = Tree.leaf .undef
    · constructor
      · intro ha; rw [hu] at ha; simp [Tree.isArrayT] at ha
      · intro ha; rw [hu] at ha; simp [Tree.jsType] at ha
    · have hbe : (resolvedParent src (n :: rest) == Tree.leaf Val.undef) = false :=
        beq_eq_false_iff_ne.mpr hu
      rw [inspectGetN_pia, hpar, hf, hbe]
      simp only [Bool.false_and, Bool.or_false, Bool.false_eq_true, if_false]
      constructor
      · intro ha; exact ha
      · intro ha; exact jsType_object_not_array _ ha
  · rw [if_neg hc] at hpar
    have hrp : resolvedParent src (n :: rest) = src := by
      cases rest with
      | nil => exact resolvedParent_single _ _
      | cons m q => rw [resolvedParent_cons_cons, if_neg hc]
    rw [inspectGetN_pia, hpar, hrp]
    simp only [beq_self_eq_true, Bool.true_or, if_true]
    exact ⟨fun ha => ha, fun ha => jsType_object_not_array _ ha⟩

/-- **C7**: with strict mode on and no default, `get` on an absent path fails
with `MissingIndex` when the resolved parent is a list and `MissingProperty`
when it is a map; with strict off or a default supplied it returns the default
(possibly `undefined`); on a present path it returns the resolved value. -/
theorem claim_C7_get_strict_error_kinds (o : Opts) (src : Tree) (notes : List NNote)
    (hne : notes ≠ []) :
    ((o.strict = true) → (hasN src notes = false) →
      (((resolvedParent src notes).isArrayT = true →
          getN o src notes none = .error .missingIndex)
        ∧ ((resolvedParent src notes).jsType = "object" →
          getN o src notes none = .error .missingProperty)))
    ∧ ((hasN src notes = false) → ∀ d : Tree, getN o src notes (some d) = .ok d)
    ∧ ((o.strict = false) → (hasN src notes = false) →
        ∀ d : Option Tree, getN o src notes d = .ok (d.getD (.leaf .undef)))
    ∧ ((hasN src notes = true) →
        ∀ d : Option Tree, getN o src notes d = .ok (inspectGetN src notes).value) := by
  match notes, hne with
  | n :: rest, _ =>
    refine ⟨?_, ?_, ?_, ?_⟩
    · intro hs hf
      have hf' : (inspectGetN src (n :: rest)).has = false := hf
      have hpa := inspectGetN_parentIsArray src n rest hf'
      constructor
      · intro ha
        have hx := hpa.1 ha
        simp [getN, hs, hf', hx]
      · intro ha
        have hx := hpa.2 ha
        simp [getN, hs, hf', hx]
    · intro hf d
      have hf' : (inspectGetN src (n :: rest)).has = false := hf
      simp [getN, hf']
    · intro hs hf d
      have hf' : (inspectGetN src (n :: rest)).has = false := hf
      simp [getN, hs, hf']
    · intro ht d
      have ht' : (inspectGetN src (n :: rest)).has = true := ht
      simp [getN, ht']

/-- **C10**: `hasDefined` equals `has` conjoined with the value not being the
`undefined` sentinel, and an `inspectGet` result with `has:false` always
carries the `undefined` value; in particular `hasDefined` implies `has`. -/
theorem claim_C10_hasDefined (src : Tree) (notes : List NNote) :
    (hasDefinedN src notes
        = (hasN src notes && ((inspectGetN src notes).value != Tree.leaf .undef)))
    ∧ ((inspectGetN src notes).has = false →
        (inspectGetN src notes).value = Tree.leaf .undef)
    ∧ (hasDefinedN src notes = true → hasN src notes = true) := by
  have hval : (inspectGetN src notes).has = false →
      (inspectGetN src notes).value = Tree.leaf .undef := by
    intro hf
    simp only [inspectGetN] at hf ⊢
    exact inspectLoop_val_of_not_has src _ _ 0 notes (by intro _; rfl) hf
  refine ⟨?_, hval, ?_⟩
  · cases hh : (inspectGetN src notes).has
    · have hv := hval hh
      simp [hasDefinedN, hasN, hh, hv]
    · simp [hasDefinedN, hasN, hh]
  · intro hd
    cases hh : (inspectGetN src notes).has
    · have hv := hval hh
      simp [hasDefinedN, hv] at hd
    · exact hh

/-- Witness for C7 at the two scenarios given in the spec: strict `get("a.b")`
on `{}` fails `MissingProperty`, and strict `get("[0]")` on `[]` fails
`MissingIndex`. -/
theorem claim_C7_witness :
    getN { strict := true } (Tree.map []) [NNote.key "a", NNote.key "b"] none
        = .error .missingProperty
    ∧ getN { strict := true } (Tree.arr []) [NNote.idx 0] none
        = .error .missingIndex := by
  constructor
  · exact ((claim_C7_get_strict_error_kinds { strict := true } (Tree.map [])
      [NNote.key "a", NNote.key "b"] (by simp)).1 rfl (by decide)).2 (by decide)
  · exact ((claim_C7_get_strict_error_kinds { strict := true } (Tree.arr [])
      [NNote.idx 0] (by simp)).1 rfl (by decide)).1 (by decide)

/-! ## set (src/src/core/notation.js lines 537-591)

The JS loop over the notes keeps a mutable `level` cursor into the tree; the
model renders the in-place mutation by rebuilding each visited level around
the recursive result.  Since the module is an ES module (strict mode), the
write `level[nCurrentNote] = ...` raises a `TypeError` when `level` is a
scalar (including `null`/`undefined`); the model surfaces that as
`Err.typeError`. -/

/-- Write mode of `Notation#set` (`"overwrite"`, `"insert"`, or the explicit
`false` that leaves existing values untouched). -/
inductive SetMode where
  | overwrite
  | insert
  | noOverwrite
deriving DecidableEq, Repr

/-- `arr.splice(i, 0, v)`: insert `v` at index `i`, shifting later items. -/
def arrInsert (a : List (Option Tree)) (i : Nat) (v : Tree) : List (Option Tree) :=
  a.take i ++ some v :: a.drop i

/-- Insert `v` at an array index (`level.splice(nCurrentNote, 0, value)`);
only reached with an array level and a numeric note. -/
def Tree.insertAtN : Tree → NNote → Tree → Tree
  | .arr a, .idx i, v => .arr (arrInsert a i v)
  | t, _, _ => t

/-- The `Notation.eachNote` loop body of `Notation#set`. -/
def setGo (value : Tree) (mode : SetMode) : Tree → List NNote → Except Err Tree
  | level, [] => .ok level
  | level, n :: rest =>
      if level.isArrayT && !n.isIdx then
        -- "Cannot set string key '<note>' on array" (spec: TypeMismatch)
        .error .typeMismatch
      else if level.hasOwnN n then
        if rest.isEmpty then
          match mode with
          | .overwrite => .ok (level.assignN n value)
          | .insert =>
              if level.isArrayT then .ok (level.insertAtN n value)
              else .error .insertOnNonList
          | .noOverwrite => .ok level
        else do
          let child ← setGo value mode (level.childN n) rest
          .ok (level.assignN n child)
      else
        if rest.isEmpty && !level.isArrayT && mode == SetMode.insert then
          .error .insertOnNonList
        else if rest.isEmpty then
          match level with
          | .leaf _ => .error .typeError
          | _ => .ok (level.assignN n value)
        else
          match level with
          | .leaf _ => .error .typeError
          | _ => do
              let c : Tree := if (rest.head?.map NNote.isIdx).getD false
                              then .arr [] else .map []
              let child ← setGo value mode c rest
              .ok (level.assignN n child)

/-- `Notation#set`: an empty (all-whitespace) notation is the invalid-syntax
error; otherwise run the loop from the source root. -/
def setN (src : Tree) (notes : List NNote) (value : Tree) (mode : SetMode) :
    Except Err Tree :=
  match notes with
  | [] => .error .invalidSyntax
  | _ => setGo value mode src notes

theorem setGo_cons (v : Tree) (mode : SetMode) (level : Tree) (n : NNote)
    (rest : List NNote) :
    setGo v mode level (n :: rest) =
      (if level.isArrayT && !n.isIdx then
        .error .typeMismatch
      else if level.hasOwnN n then
        if rest.isEmpty then
          match mode with
          | .overwrite => .ok (level.assignN n v)
          | .insert =>
              if level.isArrayT then .ok (level.insertAtN n v)
              else .error .insertOnNonList
          | .noOverwrite => .ok level
        else do
          let child ← setGo v mode (level.childN n) rest
          .ok (level.assignN n child)
      else
        if rest.isEmpty && !level.isArrayT && mode == SetMode.insert then
          .error .insertOnNonList
        else if rest.isEmpty then
          match level with
          | .leaf _ => .error .typeError
          | _ => .ok (level.assignN n v)
        else
          match level with
          | .leaf _ => .error .typeError
          | _ => do
              let c : Tree := if (rest.head?.map NNote.isIdx).getD false
                              then .arr [] else .map []
              let child ← setGo v mode c rest
              .ok (level.assignN n child)) := rfl

/-! ### Reading back a member just written -/

theorem mapFind_set_self : ∀ (m : List (String × Tree)) (k : String) (v : Tree),
    mapFind (mapSet m k v) k = some v := by
  intro m k v
  by_cases h : (mapFind m k).isSome
  · rw [mapSet, if_pos h]
    induction m with
    | nil => simp [mapFind] at h
    | cons e r ih =>
        by_cases he : e.1 == k
        · simp [mapFind, he]
        · have he' : (e.1 == k) = false := by
            cases hb : e.1 == k
            · rfl
            · exact absurd (by exact hb) he
          rw [mapFind, if_neg he] at h
          have := ih h
          simpa [mapFind, he'] using this
  · rw [mapSet, if_neg h]
    induction m with
    | nil => simp [mapFind]
    | cons e r ih =>
        by_cases he : e.1 == k
        · rw [mapFind, if_pos he] at h
          simp at h
        · rw [mapFind, if_neg he] at h
          have he' : (e.1 == k) = false := by
            cases hb : e.1 == k
            · rfl
            · exact absurd (by exact hb) he
          simp [mapFind, List.cons_append, he', ih h]

theorem getq_set_self : ∀ (a : List (Option Tree)) (i : Nat) (x : Option Tree),
    i < a.length → (a.set i x)[i]? = some x := by
  intro a
  induction a with
  | nil => intro i x h; simp at h
  | cons e r ih =>
      intro i x h
      cases i with
      | zero => simp
      | succ j => simpa using ih j x (by simpa using h)

theorem arrSet_read (a : List (Option Tree)) (i : Nat) (x : Tree) :
    (arrSet a i x)[i]? = some (some x) := by
  rw [arrSet]
  by_cases h : i < a.length
  · rw [if_pos h]
    exact getq_set_self a i (some x) h
  · rw [if_neg h]
    have h1 : a.length ≤ i := Nat.le_of_not_lt h
    rw [List.append_assoc, List.getElem?_append_right h1]
    rw [List.getElem?_append_right (by simp)]
    simp

/-- The shapes on which `hasOwn` can succeed. -/
theorem hasOwn_shape (level : Tree) (n : NNote) (h : level.hasOwnN n = true) :
    (∃ m, level = Tree.map m) ∨ (∃ a i, level = Tree.arr a ∧ n = NNote.idx i) := by
  cases level with
  | leaf v => simp [Tree.hasOwnN] at h
  | map m => exact .inl ⟨m, rfl⟩
  | arr a =>
      cases n with
      | key s => simp [Tree.hasOwnN] at h
      | idx i => exact .inr ⟨a, i, rfl, rfl⟩

/-- After `level[n] = x` on a suitable container, the member is present and
reads back as `x`. -/
theorem assign_read (level : Tree) (n : NNote) (x : Tree)
    (h : (∃ m, level = Tree.map m) ∨ (∃ a i, level = Tree.arr a ∧ n = NNote.idx i)) :
    (level.assignN n x).hasOwnN n = true ∧ (level.assignN n x).childN n = x := by
  rcases h with ⟨m, rfl⟩ | ⟨a, i, rfl, rfl⟩
  · constructor
    · simp [Tree.assignN, Tree.hasOwnN, mapFind_set_self]
    · simp [Tree.childN, Tree.assignN, mapFind_set_self]
  · constructor
    · simp [Tree.assignN, Tree.hasOwnN, arrSet_read]
    · simp [Tree.childN, Tree.assignN, arrSet_read]

theorem bind_err {a b : Type} (e : Err) (f : a → Except Err b) :
    ((Except.error e : Except Err a) >>= f) = Except.error e := rfl

theorem bind_ok_l {a b : Type} (x : a) (f : a → Except Err b) :
    ((Except.ok x : Except Err a) >>= f) = f x := rfl

/-- Core of C5: a successful overwrite-mode `set` leaves the value resolvable
at the written path. -/
theorem setGo_resolve :
    ∀ (notes : List NNote) (level v T' : Tree), notes ≠ [] →
      setGo v .overwrite level notes = .ok T' →
      resolve T' notes = some v := by
  intro notes
  induction notes with
  | nil => intro _ _ _ h; exact absurd rfl h
  | cons n rest ih =>
      intro level v T' _ h
      rw [setGo_cons] at h
      by_cases hg : level.isArrayT && !n.isIdx
      · rw [if_pos hg] at h; exact Except.noConfusion h
      · rw [if_neg hg] at h
        by_cases hc : level.hasOwnN n
        · rw [if_pos hc] at h
          cases rest with
          | nil =>
              rw [List.isEmpty_nil, if_pos rfl] at h
              have hT : T' = level.assignN n v := by
                injection h with hh; exact hh.symm
              have hr := assign_read level n v (hasOwn_shape level n hc)
              subst hT
              rw [resolve_cons, if_pos hr.1, hr.2]
              rfl
          | cons m rest' =>
              rw [List.isEmpty_cons, if_neg Bool.false_ne_true] at h
              cases he : setGo v .overwrite (level.childN n) (m :: rest') with
              | error e => rw [he, bind_err] at h; exact Except.noConfusion h
              | ok child =>
                  rw [he, bind_ok_l] at h
                  have hT : T' = level.assignN n child := by
                    injection h with hh; exact hh.symm
                  have hr := assign_read level n child (hasOwn_shape level n hc)
                  subst hT
                  rw [resolve_cons, if_pos hr.1, hr.2]
                  exact ih _ _ _ (by simp) he
        · rw [if_neg hc] at h
          have hi : ¬ ((rest.isEmpty && !level.isArrayT
              && (SetMode.overwrite == SetMode.insert)) = true) := by
            simp
          rw [if_neg hi] at h
          have hshape : (∃ m, level = Tree.map m)
              ∨ (∃ a i, level = Tree.arr a ∧ n = NNote.idx i) := by
            cases level with
            | leaf w =>
                exfalso
                cases rest with
                | nil =>
                    rw [List.isEmpty_nil, if_pos rfl] at h
                    exact Except.noConfusion h
                | cons m rest' =>
                    rw [List.isEmpty_cons, if_neg Bool.false_ne_true] at h
                    exact Except.noConfusion h
            | map mm => exact .inl ⟨mm, rfl⟩
            | arr aa =>
                cases hb : n with
                | key s =>
                    exfalso
                    rw [hb] at hg
                    simp [Tree.isArrayT, NNote.isIdx] at hg
                | idx i => exact .inr ⟨aa, i, rfl, rfl⟩
          cases rest with
          | nil =>
              rw [List.isEmpty_nil, if_pos rfl] at h
              rcases hshape with ⟨mm, rfl⟩ | ⟨aa, i, rfl, rfl⟩
              · have hT : T' = (Tree.map mm).assignN n v := by
                  injection h with hh; exact hh.symm
                have hr := assign_read (Tree.map mm) n v (.inl ⟨mm, rfl⟩)
                subst hT
                rw [resolve_cons, if_pos hr.1, hr.2]
                rfl
              · have hT : T' = (Tree.arr aa).assignN (.idx i) v := by
                  injection h with hh; exact hh.symm
                have hr := assign_read (Tree.arr aa) (.idx i) v
                  (.inr ⟨aa, i, rfl, rfl⟩)
                subst hT
                rw [resolve_cons, if_pos hr.1, hr.2]
                rfl
          | cons m rest' =>
              rw [List.isEmpty_cons, if_neg Bool.false_ne_true] at h
              rcases hshape with ⟨mm, rfl⟩ | ⟨aa, i, rfl, rfl⟩ <;> dsimp only at h
              · cases he : setGo v .overwrite
                    (if ((m :: rest').head?.map NNote.isIdx).getD false
                     then Tree.arr [] else Tree.map []) (m :: rest') with
                | error e => rw [he, bind_err] at h; exact Except.noConfusion h
                | ok child =>
                    rw [he, bind_ok_l] at h
                    have hT : T' = (Tree.map mm).assignN n child := by
                      injection h with hh; exact hh.symm
                    have hr := assign_read (Tree.map mm) n child (.inl ⟨mm, rfl⟩)
                    subst hT
                    rw [resolve_cons, if_pos hr.1, hr.2]
                    exact ih _ _ _ (by simp) he
              · cases he : setGo v .overwrite
                    (if ((m :: rest').head?.map NNote.isIdx).getD false
                     then Tree.arr [] else Tree.map []) (m :: rest') with
                | error e => rw [he, bind_err] at h; exact Except.noConfusion h
                | ok child =>
                    rw [he, bind_ok_l] at h
                    have hT : T' = (Tree.arr aa).assignN (.idx i) child := by
                      injection h with hh; exact hh.symm
                    have hr := assign_read (Tree.arr aa) (.idx i) child
                      (.inr ⟨aa, i, rfl, rfl⟩)
                    subst hT
                    rw [resolve_cons, if_pos hr.1, hr.2]
                    exact ih _ _ _ (by simp) he

/-- **C5**: for every tree, path and value, once `set` (default overwrite
mode) completes successfully, `get` at that path resolves and returns exactly
the written value. -/
theorem claim_C5_set_then_get (src : Tree) (notes : List NNote) (v T' : Tree)
    (h : setN src notes v .overwrite = .ok T') :
    (inspectGetN T' notes).has = true
    ∧ (inspectGetN T' notes).value = v
    ∧ ∀ (o : Opts) (d : Option Tree), getN o T' notes d = .ok v := by
  match notes with
  | [] => exact absurd h (by simp [setN])
  | n :: rest =>
    have hset : setGo v .overwrite src (n :: rest) = .ok T' := h
    have hres := setGo_resolve (n :: rest) src v T' (by simp) hset
    have hhas : (inspectGetN T' (n :: rest)).has = true := by
      rw [inspectGetN_has, inspectLoop_has, hres]
      rfl
    have hval : (inspectGetN T' (n :: rest)).value = v := by
      rw [inspectGetN_value]
      exact inspectLoop_value _ _ _ _ _ _ _ hres
    refine ⟨hhas, hval, ?_⟩
    intro o d
    simp [getN, hhas, hval]

/-- Witness for C5: `set("a[0]", 7)` on `{}` then `get("a[0]")`. -/
theorem claim_C5_witness :
    (inspectGetN (Tree.map [("a", Tree.arr [some (Tree.leaf (.num 7))])])
        [NNote.key "a", NNote.idx 0]).value = Tree.leaf (.num 7) := by
  exact (claim_C5_set_then_get (Tree.map []) [NNote.key "a", NNote.idx 0]
    (Tree.leaf (.num 7)) (Tree.map [("a", Tree.arr [some (Tree.leaf (.num 7))])])
    (by rfl)).2.1

/-- Witness for C10 at a concrete source holding a stored `undefined`. -/
theorem claim_C10_witness :
    hasDefinedN (Tree.map [("a", Tree.leaf .undef)]) [NNote.key "a"]
        = (hasN (Tree.map [("a", Tree.leaf .undef)]) [NNote.key "a"]
            && ((inspectGetN (Tree.map [("a", Tree.leaf .undef)]) [NNote.key "a"]).value
                  != Tree.leaf .undef)) := by
  exact (claim_C10_hasDefined (Tree.map [("a", Tree.leaf .undef)]) [NNote.key "a"]).1

/-! ## inspectRemove and remove (src/src/core/notation.js lines 393-437, 889-897)

`inspectRemove` resolves the parent path with `this.get(parentNotation, null)`
(so the parent is the JS `null` value when the parent path is absent), then
deletes the last note from the parent: splicing when the parent is an array
and `preserveIndices` is off, plain `delete` otherwise.  The mutation of the
aliased parent object is rendered by writing the modified parent back along
the parent path (`updateAtN`). -/

/-- `arr.splice(i, 1)`: remove the item at index `i`, shifting later items. -/
def arrRemoveAt (a : List (Option Tree)) (i : Nat) : List (Option Tree) :=
  a.take i ++ a.drop (i + 1)

/-- `delete parent[note]`: on a map the entry disappears; on an array the slot
becomes a hole (JS `delete` does not shift indices). -/
def Tree.deleteN : Tree → NNote → Tree
  | .map m, n => .map (m.filter (fun e => !(e.1 == n.keyStr)))
  | .arr a, .idx i => .arr (a.set i none)
  | t, _ => t

/-- `parent.splice(lastNoteNormalized, 1)`. -/
def Tree.spliceN : Tree → NNote → Tree
  | .arr a, .idx i => .arr (arrRemoveAt a i)
  | t, _ => t

/-- Write a replacement subtree back along a fully-resolving path (the pure
rendering of mutating through the reference `get` returned). -/
def updateAtN : Tree → List NNote → Tree → Tree
  | _, [], t' => t'
  | t, n :: rest, t' =>
      if t.hasOwnN n then t.assignN n (updateAtN (t.childN n) rest t') else t

/-- `parentNotation ? this.get(parentNotation, null) : this._source`. -/
def parentResolve (o : Opts) (src : Tree) (pn : List NNote) : Tree :=
  if pn.isEmpty then src
  else
    match getN o src pn (some (.leaf .null)) with
    | .ok t => t
    | .error _ => .leaf .null

/-- The body of `Notation#inspectRemove` once the path is split into its
parent part and last note. -/
def inspectRemoveCore (o : Opts) (src : Tree) (pn : List NNote) (lastN : NNote) :
    InspectRes × Tree :=
  let parent := parentResolve o src pn
  let parentIsArray := parent.isArrayT
  if parent.hasOwnN lastN then
    let value := parent.childN lastN
    let parent' :=
      if !o.preserveIndices && parentIsArray then parent.spliceN lastN
      else parent.deleteN lastN
    let src' := if pn.isEmpty then parent' else updateAtN src pn parent'
    ({ has := true, value := value, type := value.jsType,
       level := pn.length + 1, lastNote := some lastN,
       parentIsArray := parentIsArray }, src')
  else
    ({ has := false, value := .leaf .undef, type := "undefined",
       level := pn.length + 1, lastNote := some lastN,
       parentIsArray := parentIsArray }, src)

/-- `Notation#inspectRemove`: empty notation throws; otherwise run the core on
the parent path and last note. -/
def inspectRemoveN (o : Opts) (src : Tree) (notes : List NNote) :
    Except Err (InspectRes × Tree) :=
  match notes.getLast? with
  | none => .error .invalidSyntax
  | some lastN => .ok (inspectRemoveCore o src notes.dropLast lastN)

/-- `Notation#remove`: `inspectRemove`, then in strict mode an absent path is
promoted to the same error kinds as `get`. -/
def removeN (o : Opts) (src : Tree) (notes : List NNote) : Except Err Tree := do
  let rt ← inspectRemoveN o src notes
  if o.strict && !rt.1.has then
    .error (if rt.1.parentIsArray then .missingIndex else .missingProperty)
  else .ok rt.2

/-! ### Lemmas for remove idempotence -/

theorem mapFind_filterKey : ∀ (m : List (String × Tree)) (k : String),
    mapFind (m.filter (fun e => !(e.1 == k))) k = none := by
  intro m k
  induction m with
  | nil => rfl
  | cons e r ih =>
      by_cases he : e.1 == k
      · have he' : (e.1 == k) = true := he
        simp [List.filter, he', ih]
      · have he' : (e.1 == k) = false := by
          cases hb : e.1 == k
          · rfl
          · exact absurd hb he
        simp [List.filter, he', mapFind, ih]

theorem delete_absent (parent : Tree) (n : NNote) (h : parent.hasOwnN n = true) :
    (parent.deleteN n).hasOwnN n = false := by
  rcases hasOwn_shape parent n h with ⟨m, rfl⟩ | ⟨a, i, rfl, rfl⟩
  · simp [Tree.deleteN, Tree.hasOwnN, mapFind_filterKey]
  · have hlt : i < a.length := by
      simp only [Tree.hasOwnN] at h
      cases hq : a[i]? with
      | none => rw [hq] at h; simp at h
      | some x => exact (List.getElem?_eq_some.mp hq).1
    simp only [Tree.deleteN, Tree.hasOwnN]
    rw [getq_set_self a i none hlt]

theorem delete_kind (t : Tree) (n : NNote) : (t.deleteN n).isArrayT = t.isArrayT := by
  cases t with
  | leaf v => rfl
  | map m => rfl
  | arr a => cases n <;> rfl

theorem updateAt_resolve :
    ∀ (pn : List NNote) (src P P' : Tree),
      resolve src pn = some P →
      resolve (updateAtN src pn P') pn = some P' := by
  intro pn
  induction pn with
  | nil => intro src P P' _; rfl
  | cons n rest ih =>
      intro src P P' h
      rw [resolve_cons] at h
      by_cases hc : src.hasOwnN n
      · rw [if_pos hc] at h
        have hu : updateAtN src (n :: rest) P'
            = src.assignN n (updateAtN (src.childN n) rest P') := by
          rw [updateAtN, if_pos hc]
        rw [hu]
        have hr := assign_read src n (updateAtN (src.childN n) rest P')
          (hasOwn_shape src n hc)
        rw [resolve_cons, if_pos hr.1, hr.2]
        exact ih _ _ _ h
      · rw [if_neg hc] at h
        exact absurd h (by simp)

theorem getN_resolve_some (o : Opts) (src : Tree) (n : NNote) (rest : List NNote)
    (P : Tree) (d : Tree) (h : resolve src (n :: rest) = some P) :
    getN o src (n :: rest) (some d) = .ok P := by
  have hhas : (inspectGetN src (n :: rest)).has = true := by
    rw [inspectGetN_has, inspectLoop_has, h]; rfl
  have hval : (inspectGetN src (n :: rest)).value = P := by
    rw [inspectGetN_value]; exact inspectLoop_value _ _ _ _ _ _ _ h
  simp [getN, hhas, hval]

theorem getN_resolve_none (o : Opts) (src : Tree) (n : NNote) (rest : List NNote)
    (d : Tree) (h : resolve src (n :: rest) = none) :
    getN o src (n :: rest) (some d) = .ok d := by
  have hhas : (inspectGetN src (n :: rest)).has = false := by
    rw [inspectGetN_has, inspectLoop_has, h]; rfl
  simp [getN, hhas]

/-- `parentResolve` in terms of specification-level resolution. -/
theorem parentResolve_spec (o : Opts) (src : Tree) (pn : List NNote) :
    parentResolve o src pn =
      if pn.isEmpty then src
      else (resolve src pn).getD (.leaf .null) := by
  cases pn with
  | nil => rfl
  | cons n rest =>
      rw [parentResolve]
      rw [if_neg (by simp), if_neg (by simp)]
      cases h : resolve src (n :: rest) with
      | some P => rw [getN_resolve_some o src n rest P _ h]; rfl
      | none => rw [getN_resolve_none o src n rest _ h]; rfl

/-- Key step for C4: re-running the `inspectRemove` core after a successful
non-splicing removal finds nothing and leaves the tree alone. -/
theorem removeCore_idem (o : Opts) (src : Tree) (pn : List NNote) (lastN : NNote)
    (r1 : InspectRes) (T1 : Tree)
    (h1 : inspectRemoveCore o src pn lastN = (r1, T1))
    (hh : r1.has = true)
    (hp : r1.parentIsArray = false ∨ o.preserveIndices = true) :
    inspectRemoveCore o T1 pn lastN
      = ({ has := false, value := .leaf .undef, type := "undefined",
           level := pn.length + 1, lastNote := some lastN,
           parentIsArray := r1.parentIsArray }, T1) := by
  by_cases hown : (parentResolve o src pn).hasOwnN lastN
  · simp only [inspectRemoveCore] at h1
    rw [if_pos hown] at h1
    injection h1 with ha hb
    have hpia : r1.parentIsArray = (parentResolve o src pn).isArrayT := by
      rw [← ha]
    have hdel : (if !o.preserveIndices && (parentResolve o src pn).isArrayT
            then (parentResolve o src pn).spliceN lastN
            else (parentResolve o src pn).deleteN lastN)
          = (parentResolve o src pn).deleteN lastN := by
      rcases hp with hp1 | hp2
      · rw [hpia] at hp1
        rw [if_neg (by rw [hp1]; simp)]
      · rw [if_neg (by rw [hp2]; simp)]
    rw [hdel] at hb
    have hparent2 : parentResolve o T1 pn
        = (parentResolve o src pn).deleteN lastN := by
      cases pn with
      | nil =>
          rw [parentResolve, if_pos (by simp)]
          rw [← hb]
          simp
      | cons n rest =>
          have hres : resolve src (n :: rest) = some (parentResolve o src (n :: rest)) := by
            cases hx : resolve src (n :: rest) with
            | none =>
                exfalso
                rw [parentResolve_spec, if_neg (by simp), hx] at hown
                simp [Tree.hasOwnN] at hown
            | some P =>
                rw [parentResolve_spec, if_neg (by simp), hx]
                rfl
          have hT1 : T1 = updateAtN src (n :: rest)
              ((parentResolve o src (n :: rest)).deleteN lastN) := by
            rw [← hb, if_neg (by simp)]
          have hup := updateAt_resolve (n :: rest) src _
            ((parentResolve o src (n :: rest)).deleteN lastN) hres
          rw [hT1, parentResolve_spec, if_neg (by simp), hup]
          rfl
    have hown2 : (parentResolve o T1 pn).hasOwnN lastN = false := by
      rw [hparent2]
      exact delete_absent _ _ hown
    simp only [inspectRemoveCore]
    rw [if_neg (by rw [hown2]; simp)]
    rw [hparent2, delete_kind, ← hpia]
  · exfalso
    simp only [inspectRemoveCore] at h1
    rw [if_neg hown] at h1
    injection h1 with ha hb
    rw [← ha] at hh
    simp at hh

/-- **C4 (amended)**: with strict mode off, once `remove(p)` succeeds, a
second `remove(p)` is a no-op whose underlying inspection reports `has:false`
— provided the resolved parent of `p` is not a list, or `preserveIndices` is
on.  (As stated the claim fails: with `preserveIndices:false` a list parent is
spliced, so the removed index becomes occupied again and a second `remove`
removes the next item.) -/
theorem claim_C4_remove_idempotent (o : Opts) (src : Tree) (notes : List NNote)
    (r1 : InspectRes) (T1 : Tree)
    (h1 : inspectRemoveN o src notes = .ok (r1, T1))
    (hh : r1.has = true)
    (hp : r1.parentIsArray = false ∨ o.preserveIndices = true)
    (hs : o.strict = false) :
    inspectRemoveN o T1 notes
      = .ok ({ has := false, value := .leaf .undef, type := "undefined",
               level := notes.dropLast.length + 1, lastNote := notes.getLast?,
               parentIsArray := r1.parentIsArray }, T1)
    ∧ removeN o T1 notes = .ok T1 := by
  cases hlast : notes.getLast? with
  | none => rw [inspectRemoveN, hlast] at h1; exact absurd h1 (by simp)
  | some lastN =>
      rw [inspectRemoveN, hlast] at h1
      have hcore : inspectRemoveCore o src notes.dropLast lastN = (r1, T1) := by
        injection h1 with h1'
      have h2 := removeCore_idem o src notes.dropLast lastN r1 T1 hcore hh hp
      have hsecond : inspectRemoveN o T1 notes
          = .ok ({ has := false, value := .leaf .undef, type := "undefined",
                   level := notes.dropLast.length + 1, lastNote := some lastN,
                   parentIsArray := r1.parentIsArray }, T1) := by
        rw [inspectRemoveN, hlast]
        dsimp only
        rw [h2]
      refine ⟨hsecond, ?_⟩
      rw [removeN, hsecond, bind_ok_l, hs]
      rfl

/-- Counterexample to C4 as stated: on `{a:[1,2]}` (default options, so
`preserveIndices:false`), removing `a[0]` succeeds, but a second
`remove("a[0]")` finds `has:true` again and removes the next item — the tree
changes from `{a:[2]}` to `{a:[]}`. -/
theorem claim_C4_counterexample :
    inspectRemoveN {} (Tree.map [("a", Tree.arr
        [some (Tree.leaf (.num 1)), some (Tree.leaf (.num 2))])])
        [NNote.key "a", NNote.idx 0]
      = .ok ({ has := true, value := Tree.leaf (.num 1), type := "number",
               level := 2, lastNote := some (NNote.idx 0), parentIsArray := true },
             Tree.map [("a", Tree.arr [some (Tree.leaf (.num 2))])])
    ∧ inspectRemoveN {} (Tree.map [("a", Tree.arr [some (Tree.leaf (.num 2))])])
        [NNote.key "a", NNote.idx 0]
      = .ok ({ has := true, value := Tree.leaf (.num 2), type := "number",
               level := 2, lastNote := some (NNote.idx 0), parentIsArray := true },
             Tree.map [("a", Tree.arr [])])
    ∧ (Tree.map [("a", Tree.arr [])]
        ≠ Tree.map [("a", Tree.arr [some (Tree.leaf (.num 2))])]) := by
  exact ⟨rfl, rfl, by decide⟩

/-- Witness for the amended C4 on a map parent: removing `a.b` from
`{a:{b:1}}` twice. -/
theorem claim_C4_witness :
    inspectRemoveN {} (Tree.map [("a", Tree.map [])]) [NNote.key "a", NNote.key "b"]
      = .ok ({ has := false, value := .leaf .undef, type := "undefined",
               level := 2, lastNote := some (NNote.key "b"),
               parentIsArray := false }, Tree.map [("a", Tree.map [])]) := by
  exact (claim_C4_remove_idempotent {} (Tree.map [("a", Tree.map [("b", Tree.leaf (.num 1))])])
    [NNote.key "a", NNote.key "b"]
    { has := true, value := Tree.leaf (.num 1), type := "number",
      level := 2, lastNote := some (NNote.key "b"), parentIsArray := false }
    (Tree.map [("a", Tree.map [])])
    (by rfl) (by rfl) (.inl rfl) rfl).1

/-! ## Glob patterns (src/src/core/notation.glob.js)

A glob is a notation path whose notes may also be the wildcard `*` (one plain
key) or `[*]` (one list index), with an optional whole-pattern `!` negation.
The embedded fragment has identifier keys and numeric indices (quoted keys are
excluded); globs are identified with their parse trees, so JS string equality
on (normalized) glob strings is structural equality, and the rendered string
is used where the code compares strings lexicographically. -/

/-- A glob note. -/
inductive GNote where
  | key (s : String)
  | idx (n : Nat)
  | star
  | starIdx
deriving DecidableEq, Repr

/-- A parsed glob: the whole-pattern negation flag plus its notes. -/
structure RawGlob where
  neg : Bool
  notes : List GNote
deriving DecidableEq, Repr

/-- `re.ARRAY_GLOB_NOTE` (`[digits]` or `[*]`). -/
def GNote.isArrNote : GNote → Bool
  | .idx _ => true
  | .starIdx => true
  | _ => false

/-- `re.WILDCARD` on a single note (`*` or `[*]`). -/
def GNote.isWild : GNote → Bool
  | .star => true
  | .starIdx => true
  | _ => false

/-- `_coversNote` (src/src/core/notation.glob.js lines 846-853).  `b = none`
is the JS `undefined` read past the end of the target's notes. -/
def coversNote (a : GNote) (b : Option GNote) : Bool :=
  match b with
  | some bn =>
      if a == bn then true
      else
        match a with
        | .star => !bn.isArrNote
        | .starIdx => bn.isArrNote
        | _ => false
  | none => a == GNote.star || a == GNote.starIdx

/-- The position-by-position loop of `NotationGlob.covers` (the JS loop breaks
at the first mismatch, which `&&` short-circuiting reproduces). -/
def coversLoop : List GNote → List GNote → Bool
  | [], _ => true
  | a :: ra, [] => coversNote a none && coversLoop ra []
  | a :: ra, b :: rb => coversNote a (some b) && coversLoop ra rb

/-- `NotationGlob.covers` (lines 311-335) given the negation flag and note
lists of the two sides: a negated source with more notes than the target
covers nothing; otherwise compare the notes pairwise. -/
def coversN (aNeg : Bool) (notesA notesB : List GNote) : Bool :=
  if aNeg && decide (notesB.length < notesA.length) then false
  else coversLoop notesA notesB

/-- Modelled from the spec (§4.3): `utils.normalizeGlobStr` reduces a trailing
"match everything beneath" wildcard (`.*` or `[*]` at the end) into the path
without that trailing note.  The in-src comments pin the polarity: "for
non-negated, trailing wildcards are already removed by normalization", while
negated globs keep theirs (the filter pipeline inspects their `.*`/`[*]`
tail).  At least one note is always kept. -/
def stripTW : List GNote → List GNote
  | [] => []
  | [n] => [n]
  | n :: rest =>
      match stripTW rest with
      | [] => [n]
      | [m] => if m.isWild then [n] else [n, m]
      | r => n :: r

/-- `utils.normalizeGlobStr` on a parsed glob. -/
def normalizeGlob (g : RawGlob) : RawGlob :=
  if g.neg then g else { g with notes := stripTW g.notes }

/-- A `NotationGlob` instance: the constructor stores the normalized glob, its
absolute notes, and `notes` = `split(absGlob, true)` (which re-normalizes the
absolute glob, so trailing wildcards are stripped even for negated globs). -/
structure GlobIns where
  neg : Bool
  absNotes : List GNote
  notes : List GNote
deriving DecidableEq, Repr

/-- `new NotationGlob(glob)`. -/
def mkGlob (g : RawGlob) : GlobIns :=
  let ng := normalizeGlob g
  { neg := ng.neg, absNotes := ng.notes, notes := stripTW ng.notes }

/-- `NotationGlob.covers` on two constructed instances. -/
def coversIns (a b : GlobIns) : Bool := coversN a.neg a.notes b.notes

/-- `NotationGlob.covers(stringA, stringB)`: both sides go through the
constructor. -/
def coversRaw (a b : RawGlob) : Bool := coversIns (mkGlob a) (mkGlob b)

/-- **C2 counterexample**: the negated glob `!x` (one note) covers the
strictly deeper concrete path `x.b` (two notes), so a negated pattern can
cover a target nested deeper than itself. -/
theorem claim_C2_counterexample :
    coversRaw { neg := true, notes := [GNote.key "x"] }
        { neg := false, notes := [GNote.key "x", GNote.key "b"] } = true
    ∧ [GNote.key "x", GNote.key "b"].length > [GNote.key "x"].length
    ∧ coversN true [GNote.key "x"] [GNote.key "x", GNote.key "b"] = true := by
  exact ⟨rfl, by decide, rfl⟩

/-- **C2 (amended)**: the length guard in `covers` points the other way: a
negated pattern cannot cover any target whose note count is strictly
*smaller* than its own (negation never extends scope upward). -/
theorem claim_C2_neg_covers_shallower (aNeg : Bool) (notesA notesB : List GNote)
    (hneg : aNeg = true) (hlen : notesB.length < notesA.length) :
    coversN aNeg notesA notesB = false := by
  rw [coversN, if_pos]
  rw [hneg]
  simp [hlen]

/-- Witness for the amended C2: `!x.y` does not cover `x`. -/
theorem claim_C2_witness :
    coversN true [GNote.key "x", GNote.key "y"] [GNote.key "x"] = false := by
  exact claim_C2_neg_covers_shallower true
    [GNote.key "x", GNote.key "y"] [GNote.key "x"] rfl (by decide)

/-! ## compare (src/src/core/notation.glob.js lines 447-475) -/

/-- Rendering of a glob note back to its string spelling (`utils.joinNotes`
puts a dot before identifier and `*` notes except at the front; bracket notes
attach directly). -/
def GNote.render (first : Bool) : GNote → String
  | .key s => if first then s else "." ++ s
  | .idx n => "[" ++ toString n ++ "]"
  | .star => if first then "*" else ".*"
  | .starIdx => "[*]"

/-- Rendered absolute glob string. -/
def renderNotes : List GNote → String
  | [] => ""
  | n :: rest => n.render true ++ String.join (rest.map (fun m => m.render false))

/-- Wildcard count of the absolute glob (`absGlob.match(re.WILDCARDS)`);
identifier keys cannot contain a star, so this counts the wildcard notes. -/
def wildCount (l : List GNote) : Nat := (l.filter GNote.isWild).length

/-- JS `<` on strings: code-unit lexicographic comparison (the embedded
fragment is ASCII, where code units and code points agree). -/
def strLtB : List Char → List Char → Bool
  | [], [] => false
  | [], _ :: _ => true
  | _ :: _, [] => false
  | a :: ra, b :: rb =>
      if a.toNat < b.toNat then true
      else if b.toNat < a.toNat then false
      else strLtB ra rb

/-- JS string `<` on rendered glob strings. -/
def strLt (a b : String) : Bool := strLtB a.data b.data

theorem strLtB_irrefl : ∀ l : List Char, strLtB l l = false := by
  intro l
  induction l with
  | nil => rfl
  | cons c r ih => simp [strLtB, ih]

theorem strLt_irrefl (s : String) : strLt s s = false := strLtB_irrefl s.data

/-- `re.WILDCARD.test(glob)`: the whole glob string is `*` or `[*]` (a leading
`!` makes the test fail). -/
def RawGlob.isBareWild (g : RawGlob) : Bool :=
  !g.neg && (g.notes == [GNote.star] || g.notes == [GNote.starIdx])

/-- `NotationGlob.compare`. -/
def compareG (a b : RawGlob) : Int :=
  if a == b || (a.isBareWild && b.isBareWild) then 0
  else
    let na := normalizeGlob a
    let nb := normalizeGlob b
    if na.notes.length == nb.notes.length then
      if wildCount na.notes == wildCount nb.notes then
        if !na.neg && nb.neg then -1
        else if na.neg && !nb.neg then 1
        else if strLt (renderNotes na.notes) (renderNotes nb.notes) then -1
        else if strLt (renderNotes nb.notes) (renderNotes na.notes) then 1
        else 0
      else if wildCount na.notes > wildCount nb.notes then -1 else 1
    else if na.notes.length < nb.notes.length then -1 else 1

/-- The ordering key exactly as the claim words it: note count ascending, then
wildcard count descending, then non-negated before negated, then lexicographic
tiebreak on the absolute glob string. -/
def specCompareKey (a b : RawGlob) : Int :=
  let na := normalizeGlob a
  let nb := normalizeGlob b
  if na.notes.length != nb.notes.length then
    (if na.notes.length < nb.notes.length then -1 else 1)
  else if wildCount na.notes != wildCount nb.notes then
    (if wildCount na.notes > wildCount nb.notes then -1 else 1)
  else if na.neg != nb.neg then
    (if nb.neg then -1 else 1)
  else if strLt (renderNotes na.notes) (renderNotes nb.notes) then -1
  else if strLt (renderNotes nb.notes) (renderNotes na.notes) then 1
  else 0

/-- **C6 counterexample**: `compare('*', '[*]')` short-circuits to `0`, while
the claimed key orders `*` before `[*]` (equal note and wildcard counts, both
non-negated, and `"*" < "[*]"` lexicographically). -/
theorem claim_C6_counterexample :
    compareG { neg := false, notes := [GNote.star] }
        { neg := false, notes := [GNote.starIdx] } = 0
    ∧ specCompareKey { neg := false, notes := [GNote.star] }
        { neg := false, notes := [GNote.starIdx] } = -1 := by
  exact ⟨rfl, by decide⟩

/-- **C6 (amended)**: `compare` realizes exactly the claimed ordering key,
except that two bare wildcard globs (`*` vs `[*]`) short-circuit to `0`. -/
theorem claim_C6_compare_key (a b : RawGlob) :
    compareG a b =
      if a.isBareWild && b.isBareWild then 0 else specCompareKey a b := by
  by_cases hw : (a.isBareWild && b.isBareWild) = true
  · rw [if_pos hw, compareG, if_pos (by rw [hw]; simp)]
  · rw [if_neg hw]
    by_cases hab : a = b
    · subst hab
      rw [compareG, if_pos (by simp)]
      rw [specCompareKey]
      simp [strLt_irrefl]
    · rw [compareG, if_neg (by simp [hab, hw])]
      rw [specCompareKey]
      cases hlen : ((normalizeGlob a).notes.length == (normalizeGlob b).notes.length) with
      | false => simp [hlen, bne]
      | true =>
          cases hwc : (wildCount (normalizeGlob a).notes
              == wildCount (normalizeGlob b).notes) with
          | false => simp [hlen, hwc, bne]
          | true =>
              cases hna : (normalizeGlob a).neg <;>
                cases hnb : (normalizeGlob b).neg <;>
                  simp [hlen, hwc, hna, hnb, bne]

/-- Witness for the amended C6 at `compare('prop.*.name', 'prop.*') = 1` (the
docstring example). -/
theorem claim_C6_witness :
    compareG { neg := false, notes := [GNote.key "prop", GNote.star, GNote.key "name"] }
        { neg := false, notes := [GNote.key "prop", GNote.star] } = 1 := by
  rw [claim_C6_compare_key]
  decide

/-! ## Sorting

`Array.prototype.sort` is host behavior (modern engines implement a stable
sort).  Modelled from the spec: §4.4 requires a deterministic priority order
("result sorted by compare"), rendered here as a stable insertion sort with
`le a b := comparator a b ≤ 0`. -/

/-- Insert `x` after all existing elements `y` with `le y x` (stable). -/
def sortInsert {α : Type} (le : α → α → Bool) (x : α) : List α → List α
  | [] => [x]
  | y :: rest => if le y x then y :: sortInsert le x rest else x :: y :: rest

/-- Stable sort: fold the list left to right, inserting each element after
its equals. -/
def stableSort {α : Type} (le : α → α → Bool) (l : List α) : List α :=
  l.foldl (fun acc x => sortInsert le x acc) []

/-- `_negFirstSort` (src/src/core/notation.glob.js lines 865-868): negated
globs move to the front, other pairs keep their order. -/
def negFirstSort (l : List RawGlob) : List RawGlob :=
  stableSort (fun a b => !(!a.neg && b.neg)) l

/-- `NotationGlob.sort`: sort by `compare` priorities. -/
def sortGlobs (l : List RawGlob) : List RawGlob :=
  stableSort (fun a b => decide (compareG a b ≤ 0)) l

/-! ## normalize (src/src/core/notation.glob.js lines 528-676)

The JS loops are `utils.eachRight` walks (index from `array.length - 1` down
to `0`, re-reading `array[index]` each step) over a list that is spliced only
at the current outer index, always together with a `return false` break; the
model therefore passes the list state explicitly and splices with
`eraseIdx`.  The `console.log` tracing calls have no semantic effect. -/

/-- `re.NEGATE_ALL` (`!*` or `![*]`). -/
def isNegateAll (g : RawGlob) : Bool :=
  g.neg && (g.notes == [GNote.star] || g.notes == [GNote.starIdx])

/-- `_isReverseOf` (lines 860-863): same absolute glob, opposite polarity. -/
def isReverseOf (a b : RawGlob) : Bool :=
  (a.neg != b.neg) && a.notes == b.notes

/-- `covers` between two `_inspect` objects: their `notes` field is absent, so
`covers` splits the absolute glob without re-normalizing (negated globs keep
their trailing wildcards). -/
def coversInsp (a b : RawGlob) : Bool := coversN a.neg a.notes b.notes

/-- The positional intersection loop of `_intersect` (lines 352-377).  `none`
renders the `break` that discards everything. -/
def interLoop : List GNote → List GNote → Option (List GNote)
  | [], [] => some []
  | a :: ra, [] => (interLoop ra []).map (a :: ·)
  | [], b :: rb => (interLoop [] rb).map (b :: ·)
  | a :: ra, b :: rb =>
      if a == b then (interLoop ra rb).map (a :: ·)
      else if a.isWild then (interLoop ra rb).map (b :: ·)
      else if b.isWild then (interLoop ra rb).map (a :: ·)
      else none

/-- `NotationGlob._intersect`: the intersection carries a bang if either side
does; an empty result is `null`. -/
def intersectG (a b : RawGlob) : Option RawGlob :=
  match interLoop a.notes b.notes with
  | some l =>
      if l.length > 0 then some { neg := a.neg || b.neg, notes := l } else none
  | none => none

/-- The `intersections` object: string-keyed, so duplicates collapse and
insertion order is kept. -/
def insertInter (l : List RawGlob) (g : RawGlob) : List RawGlob :=
  if l.contains g then l else l ++ [g]

/-- Flags of the inner `eachRight` of `normalize`. -/
structure InnerFlags where
  duplicate : Bool := false
  hasExactNeg : Bool := false
  negCoversPos : Bool := false
  negCoveredByPos : Bool := false
  negCoveredByNeg : Bool := false
  posCoversPos : Bool := false
  posCoveredByPos : Bool := false
  posCoveredByNeg : Bool := false
deriving DecidableEq, Repr

/-- The inner `eachRight` of `normalize` for the outer element `a` at index
`idxA`: the counter starts at the current list length; a splice always comes
with a break, so the list is stable while iterating. -/
def normInner (a : RawGlob) (idxA : Nat) :
    Nat → List RawGlob → InnerFlags → List RawGlob →
    List RawGlob × InnerFlags × List RawGlob
  | 0, list, fl, inters => (list, fl, inters)
  | idxB + 1, list, fl, inters =>
      if idxB == idxA then normInner a idxA idxB list fl inters
      else
        match list[idxB]? with
        | none => normInner a idxA idxB list fl inters
        | some b =>
          if a == b then
            (list.eraseIdx idxA, { fl with duplicate := true }, inters)
          else if !a.neg && isReverseOf a b then
            (list.eraseIdx idxA, { fl with hasExactNeg := true }, inters)
          else
            let cvB := coversInsp a b
            let cvdB := if cvB then false else coversInsp b a
            if a.neg then
              if b.neg then
                if cvdB then
                  (list.eraseIdx idxA, { fl with negCoveredByNeg := true }, inters)
                else normInner a idxA idxB list fl inters
              else
                let fl := { fl with
                  negCoversPos := fl.negCoversPos || cvB,
                  negCoveredByPos := fl.negCoveredByPos || cvdB }
                let inters :=
                  if !cvB && !cvdB then
                    match intersectG a b with
                    | some g => insertInter inters g
                    | none => inters
                  else inters
                normInner a idxA idxB list fl inters
            else
              if b.neg then
                if cvdB then
                  (list.eraseIdx idxA, { fl with posCoveredByNeg := true }, inters)
                else
                  let inters :=
                    if !cvB && !cvdB then
                      match intersectG a b with
                      | some g => insertInter inters g
                      | none => inters
                    else inters
                  normInner a idxA idxB list fl inters
              else
                let fl := { fl with posCoversPos := fl.posCoversPos || cvB }
                if cvdB then
                  (list.eraseIdx idxA, { fl with posCoveredByPos := true }, inters)
                else normInner a idxA idxB list fl inters

/-- Accumulator of the outer `eachRight` of `normalize`. -/
structure NormAcc where
  list : List RawGlob
  normalized : List RawGlob
  inters : List RawGlob
  negateAll : Bool
deriving DecidableEq, Repr

/-- The outer `eachRight` of `normalize`. -/
def normOuter : Nat → NormAcc → NormAcc
  | 0, acc => acc
  | idxA + 1, acc =>
      match acc.list[idxA]? with
      | none => normOuter idxA acc
      | some a =>
        if isNegateAll a then { acc with negateAll := true }
        else
          match normInner a idxA acc.list.length acc.list {} acc.inters with
          | (list', fl, inters') =>
            let keep := !fl.hasExactNeg &&
              (if a.neg then
                (fl.negCoversPos || fl.negCoveredByPos) && !fl.negCoveredByNeg
               else
                (fl.posCoversPos || !fl.posCoveredByPos) && !fl.posCoveredByNeg)
            let normalized' :=
              if keep && !fl.duplicate then acc.normalized ++ [a] else acc.normalized
            normOuter idxA
              { list := list', normalized := normalized', inters := inters',
                negateAll := false }

/-- `NotationGlob.normalize`.  A single-element list returns early: a lone
negated glob is redundant and yields the empty list. -/
def normalizeList (globs : List RawGlob) : List RawGlob :=
  match (negFirstSort globs).map normalizeGlob with
  | [g] => if g.neg then [] else [g]
  | list =>
      let acc := normOuter list.length
        { list := list, normalized := [], inters := [], negateAll := false }
      if acc.negateAll then [] else sortGlobs (acc.normalized ++ acc.inters)

/-- **C9**: `normalize` of a single-element list whose sole element is *any*
negated glob returns the empty list (the early single-item branch drops every
negated singleton, not only the negate-everything patterns). -/
theorem claim_C9_normalize_single_negated (g : RawGlob) (h : g.neg = true) :
    normalizeList [g] = [] := by
  have hng : normalizeGlob g = g := by rw [normalizeGlob, if_pos h]
  show (if (normalizeGlob g).neg then ([] : List RawGlob) else [normalizeGlob g]) = []
  rw [hng, if_pos h]

/-- Witness for C9 at the negated glob `!a.b` (not a negate-everything
pattern). -/
theorem claim_C9_witness :
    normalizeList [{ neg := true, notes := [GNote.key "a", GNote.key "b"] }] = [] := by
  exact claim_C9_normalize_single_negated
    { neg := true, notes := [GNote.key "a", GNote.key "b"] } rfl

/-! ## union (src/src/core/notation.glob.js lines 678-790, 828-838) -/

/-- `re.WILDCARD.test(a.absGlob)` inside `_compareUnion`: tested on the
absolute glob, so a negated bare wildcard also passes. -/
def isBareWildAbs (g : RawGlob) : Bool :=
  g.notes == [GNote.star] || g.notes == [GNote.starIdx]

/-- Flags of the inner `eachRight` of `_compareUnion`.  `notCovered` is a
plain assignment each iteration, so its final value comes from the last
element visited; `negCoversNeg` and `posCoversPos` are assigned `!hasExact`
with the value `hasExact` has at that moment. -/
structure UFlags where
  notCovered : Bool := false
  hasExact : Bool := false
  negCoversNeg : Bool := false
  posCoversNeg : Bool := false
  posCoversPos : Bool := false
  negCoversPos : Bool := false
deriving DecidableEq, Repr

/-- The inner `eachRight` of `_compareUnion` over `globsListB`, given here
already reversed (the walk goes right to left).  `a` is the inspected outer
glob, `aRaw` its raw spelling (for the `globA === globB` exact test). -/
def unionInner (a aRaw : RawGlob) :
    List RawGlob → UFlags → List RawGlob → UFlags × List RawGlob
  | [], fl, negInters => (fl, negInters)
  | globB :: rest, fl, negInters =>
      let fl := if aRaw == globB then { fl with hasExact := true } else fl
      let b := normalizeGlob globB
      let nc := !coversInsp b a
      let fl := { fl with notCovered := nc }
      if nc then
        let negInters :=
          if a.neg && b.neg then
            match intersectG a b with
            | some g => negInters ++ [g]
            | none => negInters
          else negInters
        unionInner a aRaw rest fl negInters
      else
        let fl :=
          if a.neg then
            if b.neg then { fl with negCoversNeg := !fl.hasExact }
            else { fl with posCoversNeg := true }
          else
            if !b.neg then { fl with posCoversPos := !fl.hasExact }
            else { fl with negCoversPos := true }
        unionInner a aRaw rest fl negInters

/-- One outer step of `_compareUnion` for the element `aRaw` of the first
list. -/
def compareUnionStep (listB : List RawGlob) (union : List RawGlob)
    (aRaw : RawGlob) : List RawGlob :=
  if union.contains aRaw then union
  else
    let a := normalizeGlob aRaw
    if isBareWildAbs a then union ++ [a]
    else
      match unionInner a aRaw listB.reverse {} [] with
      | (fl, negInters) =>
        let keep :=
          if a.neg then !fl.posCoversNeg || fl.negCoversNeg
          else !fl.posCoversPos || fl.negCoversPos
        if fl.hasExact || keep || (fl.notCovered && !a.neg) then union ++ [a]
        else if a.neg && fl.posCoversNeg && !fl.negCoversNeg
            && decide (negInters.length > 0) then
          union ++ negInters
        else union

/-- `NotationGlob._compareUnion` (outer `eachRight` over the first list). -/
def compareUnion (listA listB : List RawGlob) (union : List RawGlob) :
    List RawGlob :=
  listA.reverse.foldl (compareUnionStep listB) union

/-- `NotationGlob.union`: empty inputs short-circuit; otherwise normalize both
sides, run `_compareUnion` both ways, and normalize the result. -/
def unionGlobs (globsA globsB : List RawGlob) : List RawGlob :=
  if globsA.isEmpty then globsB
  else if globsB.isEmpty then globsA
  else
    let listA := normalizeList globsA
    let listB := normalizeList globsB
    let u := compareUnion listA listB []
    normalizeList (compareUnion listB listA u)

/-- Specification-level selection semantics (the covering/polarity match
semantics of spec §4.4): sort the patterns by `compare` priority, process in
ascending order, and let each pattern that covers the concrete path set the
selection to its polarity — the last covering pattern wins; with no covering
pattern nothing is selected. -/
def specSelects (globs : List RawGlob) (path : List GNote) : Bool :=
  (sortGlobs globs).foldl
    (fun acc g =>
      let ng := normalizeGlob g
      if coversN ng.neg ng.notes path then !ng.neg else acc)
    false

/-- **C1** at the failing input: `union(['*','!x'], ['x.y'])` computes to
`['*','!x']`.  The second operand alone selects the path `x.y` (and the first
does not), so the set-theoretic union must select it; the computed union does
not — during the final normalization the positive `x.y` is dropped because
`'*'` covers it, ignoring that `'!x'` excludes it.  The spec (§4.4 together
with design note §9) makes the set-union property authoritative over the
branch structure, so this is a divergence of the code from its spec. -/
theorem claim_C1_union_not_set_union :
    unionGlobs
        [{ neg := false, notes := [GNote.star] },
         { neg := true, notes := [GNote.key "x"] }]
        [{ neg := false, notes := [GNote.key "x", GNote.key "y"] }]
      = [{ neg := false, notes := [GNote.star] },
         { neg := true, notes := [GNote.key "x"] }]
    ∧ specSelects [{ neg := false, notes := [GNote.key "x", GNote.key "y"] }]
        [GNote.key "x", GNote.key "y"] = true
    ∧ specSelects
        [{ neg := false, notes := [GNote.star] },
         { neg := true, notes := [GNote.key "x"] }]
        [GNote.key "x", GNote.key "y"] = false
    ∧ specSelects
        (unionGlobs
          [{ neg := false, notes := [GNote.star] },
           { neg := true, notes := [GNote.key "x"] }]
          [{ neg := false, notes := [GNote.key "x", GNote.key "y"] }])
        [GNote.key "x", GNote.key "y"] = false := by
  exact ⟨rfl, rfl, rfl, rfl⟩

/-! ## The deep walk `_each` (src/src/core/notation.js lines 1423-1440)

`_each` visits every non-collection value with its full notation, recursing
into collections; `reverseIfArray` makes array levels iterate from the highest
index down (used by `filter` so that removals do not shift pending indices).
`utils.eachItem` is an external collaborator; modelled from the spec (§9
defined-key queries): holes are not visited. -/

mutual

/-- Deep walk of a collection, collecting `(path, leafValue)` in visit
order. -/
def walkItems (rev : Bool) (pfx : List NNote) : Tree → List (List NNote × Val)
  | .map m => walkMap rev pfx m
  | .arr a =>
      let segs := walkArrSegs rev pfx 0 a
      (if rev then segs.reverse else segs).flatten
  | .leaf _ => []

/-- Walk the entries of a map in insertion order. -/
def walkMap (rev : Bool) (pfx : List NNote) : List (String × Tree) → List (List NNote × Val)
  | [] => []
  | (k, t) :: rest =>
      (match t with
       | .leaf v => [(pfx ++ [NNote.key k], v)]
       | c => walkItems rev (pfx ++ [NNote.key k]) c)
      ++ walkMap rev pfx rest

/-- Per-index segments of an array walk (index order; the caller reverses the
segment order when `rev` is set). -/
def walkArrSegs (rev : Bool) (pfx : List NNote) (i : Nat) :
    List (Option Tree) → List (List (List NNote × Val))
  | [] => []
  | none :: rest => [] :: walkArrSegs rev pfx (i + 1) rest
  | some t :: rest =>
      (match t with
       | .leaf v => [(pfx ++ [NNote.idx i], v)]
       | c => walkItems rev (pfx ++ [NNote.idx i]) c)
      :: walkArrSegs rev pfx (i + 1) rest

end

/-! ## filter (src/src/core/notation.js lines 704-873) -/

/-- Embed a concrete note as a glob note. -/
def NNoteToG : NNote → GNote
  | .key s => .key s
  | .idx n => .idx n

/-- A concrete path as glob notes. -/
def pathToG (p : List NNote) : List GNote := p.map NNoteToG

/-- A wildcard-free glob note back as a concrete note (the callers guard the
wildcard cases; the dummy keys are never produced there). -/
def gToN : GNote → NNote
  | .key s => .key s
  | .idx n => .idx n
  | .star => .key "*"
  | .starIdx => .key "[*]"

/-- `NotationGlob#test(notation)`: the concrete notation is valid by
construction in the embedding; `covers` runs against a constructed instance
of it. -/
def testG (g : GlobIns) (path : List NNote) : Bool :=
  coversIns g (mkGlob { neg := false, notes := pathToG path })

/-- The `Notation.eachNote` prefix loop inside `filter`'s wildcard branch:
prefixes of the matched notation from shortest to longest; a negated removal
at or below the glob's depth breaks out. -/
def prefixesOf (p : List NNote) : List (List NNote) :=
  (List.range p.length).map (fun i => p.take (i + 1))

def filterWalkPrefix (g : GlobIns) (isNeg : Bool) (levels : List GNote) (v : Val) :
    List (List NNote) → Tree → Except Err Tree
  | [], filtered => .ok filtered
  | ln :: rest, filtered =>
      if testG g ln then
        if isNeg && decide (levels.length ≤ ln.length) then do
          let f' ← removeN {} filtered ln
          .ok f'
        else do
          let f' ← setN filtered ln (Tree.leaf v) .overwrite
          filterWalkPrefix g isNeg levels v rest f'
      else filterWalkPrefix g isNeg levels v rest filtered

/-- The wildcard branch of `filter`: walk the source's leaves (arrays right to
left), and for each leaf whose notation is covered by the remaining glob,
apply the set/remove actions at every matching prefix level. -/
def filterWalkEntries (o : Opts) (g : GlobIns) (normalized levels : List GNote)
    (isNeg : Bool) (emptyValue : Option Tree) (eType : String) :
    List (List NNote × Val) → Tree → Except Err Tree
  | [], filtered => .ok filtered
  | (path, v) :: rest, filtered =>
      if coversRaw { neg := false, notes := normalized }
          { neg := false, notes := pathToG path } then
        if o.strict && emptyValue.isSome
            && !((Tree.leaf v).jsType == eType)
            && path.length == levels.length - 1 then
          Except.error .integrityError
        else do
          let f' ← filterWalkPrefix g isNeg levels v (prefixesOf path) filtered
          filterWalkEntries o g normalized levels isNeg emptyValue eType rest f'
      else filterWalkEntries o g normalized levels isNeg emptyValue eType rest filtered

/-- Processing of one glob inside `filter`'s main loop.  The `filtered`
accessor was built without options, so its own operations run with default
options; only the integrity checks consult the source accessor's options. -/
def filterStep (o : Opts) (src : Tree) (filtered : Tree) (graw : RawGlob) :
    Except Err Tree :=
  let g := mkGlob graw
  let isNegated := g.neg
  let absNotes := g.absNotes
  let levels := g.notes
  let endsDotStar := decide (2 ≤ absNotes.length) && (absNotes.getLast? == some GNote.star)
  let endsBrStar := absNotes.getLast? == some GNote.starIdx
  let normalized := if endsDotStar || endsBrStar then absNotes.dropLast else absNotes
  let emptyValue : Option Tree :=
    if endsDotStar then (if isNegated then some (Tree.map []) else none)
    else if endsBrStar then (if isNegated then some (Tree.arr []) else none)
    else none
  let eType := if endsDotStar then "object" else if endsBrStar then "array" else ""
  if !(normalized.any GNote.isWild) then
    match normalized with
    | [] => .error .invalidSyntax
    | _ =>
      let nn := normalized.map gToN
      if isNegated then
        match inspectRemoveN {} filtered nn with
        | .error e => .error e
        | .ok rt =>
          match emptyValue with
          | some ev =>
              let vType := rt.1.type
              let isValSet := !(rt.1.value == Tree.leaf .undef)
                  && !(rt.1.value == Tree.leaf .null)
              if (isValSet && !(vType == eType)) || (!isValSet && o.strict) then
                Except.error .integrityError
              else
                setN rt.2 nn ev (if rt.1.parentIsArray then .insert else .overwrite)
          | none => .ok rt.2
      else
        let insGet := inspectGetN src nn
        if insGet.has then setN filtered nn insGet.value .overwrite
        else .ok filtered
  else
    filterWalkEntries o g normalized levels isNegated emptyValue eType
      (walkItems true [] src) filtered

/-- `Notation#filter`.  `cloneDeep` is structurally the identity in the pure
model (it only decouples mutation, which state passing does inherently), so
the source below is read, never written — matching the code, where all writes
go to the `filtered` accessor over the clone.  The `restrictive` option is
accepted and ignored by `Glob.normalize` (whose signature has one
parameter). -/
def filterN (o : Opts) (src : Tree) (globList : List RawGlob) : Except Err Tree :=
  let globs := normalizeList globList
  let empty : Tree := if src.isArrayT then Tree.arr [] else Tree.map []
  if globs.isEmpty then .ok empty
  else if globs.length == 1
      && (match globs.head? with
          | some gg => isNegateAll gg
          | none => false) then .ok empty
  else
    let cloned := src
    let firstIsWildcard :=
      match globs.head? with
      | some gg => gg.isBareWild
      | none => false
    if globs.length == 1 && firstIsWildcard then .ok cloned
    else
      let filtered0 := if firstIsWildcard then cloned else empty
      let rest := if firstIsWildcard then globs.tail else globs
      rest.foldlM (filterStep o src) filtered0

/-- **C8**: on `{brand:"Ford", model:{name:"Mustang", year:1970}}`, filtering
with `["*", "!model.year"]` yields exactly
`{brand:"Ford", model:{name:"Mustang"}}` (key order preserved).  The filter
embedding builds its result from the clone it seeds and only ever reads the
source argument, so the original tree is untouched — in the pure model the
source is passed by value and `filterN` returns only the new tree. -/
theorem claim_C8_filter_scenario :
    filterN {}
        (Tree.map [("brand", Tree.leaf (.str "Ford")),
          ("model", Tree.map [("name", Tree.leaf (.str "Mustang")),
            ("year", Tree.leaf (.num 1970))])])
        [{ neg := false, notes := [GNote.star] },
         { neg := true, notes := [GNote.key "model", GNote.key "year"] }]
      = .ok (Tree.map [("brand", Tree.leaf (.str "Ford")),
          ("model", Tree.map [("name", Tree.leaf (.str "Mustang"))])]) := by
  rfl

/-! ## flatten / expand (src/src/core/notation.js lines 253-289, 623-636,
1242-1266, 1423-1440)

`flatten` walks the source with `each` (the forward `_each` walk) and builds
the single-level map from rendered notation string to leaf value (`_each`
accumulates `Notation.join([parentNotation, note])` where an index note is
rendered `[i]` and a key note is the raw, unquoted key); `expand` merges that
flat map into a fresh `{}` with `set(notation, value, overwrite)`, skipping
any notation string containing a reserved name, where `set` re-splits each
notation with `Notation.split` — validating it against `reVALIDATOR` and
throwing the invalid-notation error when it does not match.  The model keeps
both halves of that cycle: rendering paths to strings and parsing strings
back to note lists. -/

/-- Leaf list of a subtree with a path prefix; a scalar contributes itself. -/
def flat (p : List NNote) (t : Tree) : List (List NNote × Val) :=
  match t with
  | .leaf v => [(p, v)]
  | c => walkItems false p c

theorem flat_leaf (p : List NNote) (v : Val) : flat p (.leaf v) = [(p, v)] := rfl

theorem walkMap_cons (p : List NNote) (k : String) (t : Tree)
    (rest : List (String × Tree)) :
    walkMap false p ((k, t) :: rest)
      = flat (p ++ [NNote.key k]) t ++ walkMap false p rest := by
  cases t <;> rfl

theorem walkSegs_cons_some (p : List NNote) (i : Nat) (t : Tree)
    (rest : List (Option Tree)) :
    walkArrSegs false p i (some t :: rest)
      = flat (p ++ [NNote.idx i]) t :: walkArrSegs false p (i + 1) rest := by
  cases t <;> rfl

theorem flat_map_def (p : List NNote) (m : List (String × Tree)) :
    flat p (Tree.map m) = walkMap false p m := rfl

theorem flat_arr_def (p : List NNote) (a : List (Option Tree)) :
    flat p (Tree.arr a) = (walkArrSegs false p 0 a).flatten := rfl

/-- Contiguous substring search over characters (JS `String#includes`). -/
def leadsWith : List Char → List Char → Bool
  | [], _ => true
  | _ :: _, [] => false
  | p :: ps, c :: cs => p == c && leadsWith ps cs

def hasSub (pat : List Char) : List Char → Bool
  | [] => pat.isEmpty
  | c :: rest => leadsWith pat (c :: rest) || hasSub pat rest

/-- `merge`'s reserved-name test on a notation string:
`notation.includes(...)` for `__proto__`, `prototype`, `constructor`. -/
def denyStr (s : String) : Bool :=
  hasSub "__proto__".data s.data || hasSub "prototype".data s.data
    || hasSub "constructor".data s.data

/-- The reserved-name test on one parsed note (an index note renders as
`[digits]` and cannot contain a reserved word). -/
def denyNote : NNote → Bool
  | .key s => denyStr s
  | .idx _ => false

/-! ### Rendering paths to notation strings

`_each` builds the visited notation incrementally with
`Notation.join([parentNotation, note])`; `utils.joinNotes` (src/utils is not
part of the core sources) is modelled from the spec: `join` is the pure
inverse of `split` (§7 `join(split(p)) == p`), so a key note renders as the
bare key — prefixed with `.` when it is not the first note — and an index
note renders as the bracketed decimal `[i]` attached without a dot. -/

/-- One decimal digit (JS number-to-string rendering). -/
def digitChar : Nat → Char
  | 0 => '0'
  | 1 => '1'
  | 2 => '2'
  | 3 => '3'
  | 4 => '4'
  | 5 => '5'
  | 6 => '6'
  | 7 => '7'
  | 8 => '8'
  | _ => '9'

/-- Fuelled most-significant-first decimal rendering. -/
def natDigits : Nat → Nat → List Char
  | 0, _ => []
  | fuel + 1, n =>
      if n < 10 then [digitChar n]
      else natDigits fuel (n / 10) ++ [digitChar (n % 10)]

/-- Decimal rendering of a natural (the JS `` `[${i}]` `` interpolation). -/
def natDecimal (n : Nat) : List Char := natDigits (n + 1) n

/-- Decimal value of a digit string (`utils.normalizeNote`'s number
conversion). -/
def decimalToNat (l : List Char) : Nat :=
  l.foldl (fun a c => a * 10 + (c.toNat - 48)) 0

/-- Render one note (`_each`'s `note` plus the join rule). -/
def renderNote (first : Bool) : NNote → List Char
  | .key s => if first then s.data else '.' :: s.data
  | .idx i => '[' :: (natDecimal i ++ [']'])

/-- Render an accumulated note list (the `currentNotation` of the walk). -/
def renderChars (first : Bool) : List NNote → List Char
  | [] => []
  | n :: rest => renderNote first n ++ renderChars false rest

def renderPath (p : List NNote) : String := String.mk (renderChars true p)

/-! ### Parsing notation strings (`Notation.split`, lines 1242-1256)

`split` first validates against `reVALIDATOR`
(`^(ident|bracket)(bracket|.ident)*$` with `ident = [a-z$_][a-z$_\d]*/i` and
`bracket = \[(\d+|".*"|'.*')\]`) and throws the invalid-notation error on
failure, then cuts the string into notes with `reMATCHER`.  The model is a
deterministic recursive-descent parser for that grammar; the alternatives are
distinguished by their first character, and a shorter identifier or digit run
never helps the regex engine (the continuation would start with an identifier
or digit character that no alternative accepts), so determinism is faithful.
In a quoted bracket note the greedy `".*"` reaches the last quote-bracket
pair, which the parser mirrors; the engine's fallback to an earlier pair when
the chosen one leaves an unparsable tail is not modelled — inputs
distinguishing the two contain a quote character inside a bracket, which no
rendered notation of the trees under study and no claim input contains.  Each
produced note is normalized as `utils.normalizeNote` (modelled from the spec
§3: bracketed digits become the integer index; quoted or plain notes become
the string key). -/

/-- First character of the identifier alternative (`[a-z$_]`, `/i`). -/
def identStart (c : Char) : Bool := c.isAlpha || c == '$' || c == '_'

/-- Later characters of the identifier alternative (`[a-z$_\d]`, `/i`). -/
def identChar (c : Char) : Bool := c.isAlpha || c.isDigit || c == '$' || c == '_'

/-- Identifier key grammar (`[a-z$_][a-z$_\d]*`, case-insensitive). -/
def identKey (s : String) : Bool :=
  match s.data with
  | [] => false
  | c :: rest => identStart c && rest.all identChar

/-- Greedy identifier note at the head of the input. -/
def takeIdent : List Char → Option (NNote × List Char)
  | [] => none
  | c :: cs =>
      if identStart c then
        some (.key (String.mk (c :: cs.takeWhile identChar)), cs.dropWhile identChar)
      else none

/-- Close of a quoted bracket content: the last `q`-then-`]` pair reachable
without crossing a newline (the greedy `".*"`).  Returns the content before
the closing quote and the input after the `]`. -/
def lastClose (q : Char) : List Char → Option (List Char × List Char)
  | [] => none
  | c :: cs =>
      if c == '\n' then none
      else
        match lastClose q cs with
        | some (inner, rest) => some (c :: inner, rest)
        | none =>
            if c == q then
              match cs with
              | ']' :: rest => some ([], rest)
              | _ => none
            else none

/-- Bracket note at the head of the input: `[digits]` (an index) or a quoted
key. -/
def takeBracket : List Char → Option (NNote × List Char)
  | '[' :: c :: cs =>
      if c.isDigit then
        match (c :: cs).dropWhile Char.isDigit with
        | ']' :: rest =>
            some (.idx (decimalToNat ((c :: cs).takeWhile Char.isDigit)), rest)
        | _ => none
      else if c == '"' || c == '\'' then
        match lastClose c cs with
        | some (inner, rest) => some (.key (String.mk inner), rest)
        | none => none
      else none
  | _ => none

/-- One note of the validator grammar: the first note is an identifier or a
bracket; later notes are a bracket or a dot followed by an identifier. -/
def parseSeg : Bool → List Char → Option (NNote × List Char)
  | true, s =>
      match takeIdent s with
      | some r => some r
      | none => takeBracket s
  | false, s =>
      match s with
      | '.' :: rest => takeIdent rest
      | _ => takeBracket s

/-- Anchored parse of a whole notation into normalized notes (fuelled; every
note consumes at least one character). -/
def parseNotes : Nat → Bool → List Char → Option (List NNote)
  | _, first, [] => if first then none else some []
  | 0, _, _ :: _ => none
  | fuel + 1, first, c :: cs =>
      match parseSeg first (c :: cs) with
      | none => none
      | some (n, rest) => (parseNotes fuel false rest).map (fun ns => n :: ns)

/-- `Notation.split` + per-note `utils.normalizeNote`: the notes of a valid
notation, or the invalid-notation error. -/
def splitN (s : String) : Except Err (List NNote) :=
  match parseNotes (s.data.length + 1) true s.data with
  | some ns => .ok ns
  | none => .error .invalidSyntax

/-- `flatten`: the single-level association of rendered notation strings to
leaf values, in visit order. -/
def flatObj (T : Tree) : List (String × Val) :=
  (walkItems false [] T).map (fun pv => (renderPath pv.1, pv.2))

/-- `Notation#merge` over a flat notated map (insertion order), as used by
`expand`: skip any notation containing a reserved name, otherwise
`set(notation, value, true)` — which re-splits the notation and fails with
the invalid-notation error when it does not parse. -/
def mergeFlatS (start : Tree) (ps : List (String × Val)) : Except Err Tree :=
  ps.foldlM (fun acc sv =>
    if denyStr sv.1 then .ok acc
    else do
      let notes ← splitN sv.1
      setN acc notes (Tree.leaf sv.2) .overwrite) start

/-- `expand(flatten(T))`: flatten the source to its notated leaf map, then
merge it into a fresh `{}`. -/
def roundTrip (T : Tree) : Except Err Tree :=
  mergeFlatS (Tree.map []) (flatObj T)

/-- Plain fold of `set` calls at the parsed-path level (what the merge fold
becomes once no entry is skipped and every notation re-parses). -/
def foldSet (A : Tree) (ps : List (List NNote × Val)) : Except Err Tree :=
  ps.foldlM (fun acc pv => setN acc pv.1 (Tree.leaf pv.2) .overwrite) A

/-- **C3 counterexample**: the round trip is not the identity on all trees.
An empty container is dropped (`flatten` visits only non-collection leaves,
so `{a:{}}` expands back to `{}`); a non-identifier key fails to re-parse
(`flatten` renders it unquoted, so `expand`'s `set` throws the
invalid-notation error on `{"a-b":1}`); and a list root comes back as an
object (`merge` always starts from `{}`, so `[1]` expands to `{"0":1}`). -/
theorem claim_C3_counterexample :
    roundTrip (Tree.map [("a", Tree.map [])]) = .ok (Tree.map [])
    ∧ Tree.map ([] : List (String × Tree)) ≠ Tree.map [("a", Tree.map [])]
    ∧ roundTrip (Tree.map [("a-b", Tree.leaf (Val.num 1))])
        = .error .invalidSyntax
    ∧ roundTrip (Tree.arr [some (Tree.leaf (Val.num 1))])
        = .ok (Tree.map [("0", Tree.leaf (Val.num 1))])
    ∧ Tree.map [("0", Tree.leaf (Val.num 1))]
        ≠ Tree.arr [some (Tree.leaf (Val.num 1))] := by
  exact ⟨rfl, by decide, rfl, rfl, by decide⟩

/-! ### Round-trip machinery

The amended round-trip law restricts the tree to the shape the pipeline can
reproduce: a map at the root, no empty containers (flatten never sees them),
no array holes (skipped by the walk), identifier keys (so the rendered
notation re-parses to the same path) free of the reserved substrings, and no
duplicate keys (JS objects cannot have any). -/

/-- No later entry reuses an earlier key. -/
def nodupKeys : List (String × Tree) → Bool
  | [] => true
  | (k, _) :: rest => !(rest.any (fun e => e.1 == k)) && nodupKeys rest

mutual

/-- The round-trippable trees (see the section comment). -/
def goodT : Tree → Bool
  | .leaf _ => true
  | .map m => !m.isEmpty && nodupKeys m && goodEntries m
  | .arr a => !a.isEmpty && goodItems a

def goodEntries : List (String × Tree) → Bool
  | [] => true
  | (k, t) :: rest =>
      identKey k && !denyNote (.key k) && goodT t && goodEntries rest

def goodItems : List (Option Tree) → Bool
  | [] => true
  | none :: _ => false
  | some t :: rest => goodT t && goodItems rest

end

/-- The container kind fits the note (the good-tree walk produces key notes
exactly at maps and index notes exactly at arrays). -/
def kindMatch : Tree → NNote → Bool
  | .map _, .key _ => true
  | .arr _, .idx _ => true
  | _, _ => false

/-- `fresh A p`: walking `p` in `A`, every existing step goes through a
container matching its note's kind, and the first missing note is a clean
extension point — an absent map key, or exactly the append index of an
array.  The walk must leave `A` before `p` ends (the target itself is
absent). -/
def fresh : Tree → List NNote → Bool
  | _, [] => false
  | A, n :: rest =>
      if A.hasOwnN n then
        kindMatch A n && !rest.isEmpty && fresh (A.childN n) rest
      else
        match A, n with
        | .map _, .key _ => true
        | .arr a, .idx i => i == a.length
        | _, _ => false

/-- The chain of containers `set` creates below the first missing note: each
container's kind is chosen by its note. -/
def made : List NNote → Tree → Tree
  | [], v => v
  | r1 :: r', v =>
      (if r1.isIdx then Tree.arr [] else Tree.map []).assignN r1 (made r' v)

/-- Grafting `v` at a fresh path: rebuild the existing prefix, then store the
creation chain at the first missing note. -/
def plant : Tree → List NNote → Tree → Tree
  | _, [], v => v
  | A, n :: rest, v =>
      if A.hasOwnN n then A.assignN n (plant (A.childN n) rest v)
      else A.assignN n (made rest v)

theorem fresh_cons (A : Tree) (n : NNote) (rest : List NNote) :
    fresh A (n :: rest) =
      if A.hasOwnN n then
        kindMatch A n && !rest.isEmpty && fresh (A.childN n) rest
      else
        match A, n with
        | .map _, .key _ => true
        | .arr a, .idx i => i == a.length
        | _, _ => false := rfl

theorem plant_cons (A : Tree) (n : NNote) (rest : List NNote) (v : Tree) :
    plant A (n :: rest) v =
      if A.hasOwnN n then A.assignN n (plant (A.childN n) rest v)
      else A.assignN n (made rest v) := rfl

/-- The shapes `kindMatch` allows. -/
theorem kindMatch_shape (A : Tree) (n : NNote) (h : kindMatch A n = true) :
    (∃ m k, A = Tree.map m ∧ n = NNote.key k)
    ∨ (∃ a i, A = Tree.arr a ∧ n = NNote.idx i) := by
  cases A with
  | leaf v => simp [kindMatch] at h
  | map m =>
      cases n with
      | key s => exact .inl ⟨m, s, rfl, rfl⟩
      | idx i => simp [kindMatch] at h
  | arr a =>
      cases n with
      | key s => simp [kindMatch] at h
      | idx i => exact .inr ⟨a, i, rfl, rfl⟩

/-- The `else`-branch test of `fresh` as a named predicate: the note is a
clean extension point of the container. -/
def freshTip (A : Tree) (n : NNote) : Bool :=
  match A, n with
  | .map _, .key _ => true
  | .arr a, .idx i => i == a.length
  | _, _ => false

/-- The `else` branch of `fresh` also yields a `kindMatch` shape. -/
theorem freshTip_shape (A : Tree) (n : NNote)
    (h : freshTip A n = true) :
    (∃ m k, A = Tree.map m ∧ n = NNote.key k)
    ∨ (∃ a i, A = Tree.arr a ∧ n = NNote.idx i) := by
  cases A with
  | leaf v => cases n <;> simp [freshTip] at h
  | map m =>
      cases n with
      | key s => exact .inl ⟨m, s, rfl, rfl⟩
      | idx i => simp [freshTip] at h
  | arr a =>
      cases n with
      | key s => simp [freshTip] at h
      | idx i => exact .inr ⟨a, i, rfl, rfl⟩

/-- The empty container created for a note matches it. -/
theorem emptyFor_shape (n : NNote) :
    (∃ m, (if n.isIdx then Tree.arr [] else Tree.map []) = Tree.map m)
    ∨ (∃ a i, (if n.isIdx then Tree.arr [] else Tree.map []) = Tree.arr a
        ∧ n = NNote.idx i) := by
  cases n with
  | key s => exact .inl ⟨[], rfl⟩
  | idx i => exact .inr ⟨[], i, rfl, rfl⟩

/-- Assignment keeps the container's constructor, hence `kindMatch`. -/
theorem assign_kindMatch (A : Tree) (n : NNote) (X : Tree)
    (h : kindMatch A n = true) : kindMatch (A.assignN n X) n = true := by
  rcases kindMatch_shape A n h with ⟨m, k, rfl, rfl⟩ | ⟨a, i, rfl, rfl⟩
  · rfl
  · rfl

theorem freshTip_kindMatch_assign (A : Tree) (n : NNote) (X : Tree)
    (h : freshTip A n = true) :
    kindMatch (A.assignN n X) n = true := by
  rcases freshTip_shape A n h with ⟨m, k, rfl, rfl⟩ | ⟨a, i, rfl, rfl⟩
  · rfl
  · rfl

theorem bool_eq_false {b : Bool} (h : ¬ b = true) : b = false := by
  cases b
  · rfl
  · exact absurd rfl h

theorem mapSet_absent (m : List (String × Tree)) (k : String) (v : Tree)
    (h : mapFind m k = none) : mapSet m k v = m ++ [(k, v)] := by
  rw [mapSet, if_neg (by rw [h]; simp)]

theorem map_noKey_id (m : List (String × Tree)) (k : String) (Z : Tree)
    (h : mapFind m k = none) :
    m.map (fun e => if e.1 == k then (k, Z) else e) = m := by
  induction m with
  | nil => rfl
  | cons e r ih =>
      rw [mapFind] at h
      by_cases h0 : (e.1 == k) = true
      · rw [if_pos h0] at h; exact absurd h (by simp)
      · rw [if_neg h0] at h
        simp only [List.map_cons, if_neg h0, ih h]

theorem mapSet_collapse (m : List (String × Tree)) (k : String) (Y Z : Tree) :
    mapSet (mapSet m k Y) k Z = mapSet m k Z := by
  by_cases hs : (mapFind m k).isSome = true
  · have h1 : mapSet m k Y = m.map (fun e => if e.1 == k then (k, Y) else e) := by
      rw [mapSet, if_pos hs]
    have h2 : mapSet m k Z = m.map (fun e => if e.1 == k then (k, Z) else e) := by
      rw [mapSet, if_pos hs]
    have h3 : (mapFind (mapSet m k Y) k).isSome = true := by
      rw [mapFind_set_self]; rfl
    rw [h1] at h3
    calc mapSet (mapSet m k Y) k Z
        = (m.map (fun e => if e.1 == k then (k, Y) else e)).map
            (fun e => if e.1 == k then (k, Z) else e) := by
          rw [h1, mapSet, if_pos h3]
      _ = m.map (fun e => if e.1 == k then (k, Z) else e) := by
          rw [List.map_map]
          refine List.map_congr_left ?_
          intro e _
          by_cases h0 : e.1 = k
          · simp [h0]
          · simp [h0]
      _ = mapSet m k Z := h2.symm
  · have hn : mapFind m k = none := by
      cases hx : mapFind m k
      · rfl
      · rw [hx] at hs; exact absurd rfl hs
    have h1 : mapSet m k Y = m ++ [(k, Y)] := mapSet_absent m k Y hn
    have h3 : (mapFind (m ++ [(k, Y)]) k).isSome = true := by
      rw [← h1, mapFind_set_self]; rfl
    calc mapSet (mapSet m k Y) k Z
        = (m ++ [(k, Y)]).map (fun e => if e.1 == k then (k, Z) else e) := by
          rw [h1, mapSet, if_pos h3]
      _ = m ++ [(k, Z)] := by
          rw [List.map_append, map_noKey_id m k Z hn]
          simp
      _ = mapSet m k Z := (mapSet_absent m k Z hn).symm

theorem set_append_len (xs : List (Option Tree)) (y z : Option Tree) :
    (xs ++ [y]).set xs.length z = xs ++ [z] := by
  induction xs with
  | nil => rfl
  | cons e r ih => simp [List.set, ih]

theorem arrSet_append (a : List (Option Tree)) (v : Tree) :
    arrSet a a.length v = a ++ [some v] := by
  rw [arrSet, if_neg (by omega)]
  simp

theorem arrSet_collapse (a : List (Option Tree)) (i : Nat) (Y Z : Tree) :
    arrSet (arrSet a i Y) i Z = arrSet a i Z := by
  by_cases h : i < a.length
  · have h1 : arrSet a i Y = a.set i (some Y) := by rw [arrSet, if_pos h]
    have hl : i < (a.set i (some Y)).length := by simpa using h
    calc arrSet (arrSet a i Y) i Z
        = (a.set i (some Y)).set i (some Z) := by rw [h1, arrSet, if_pos hl]
      _ = a.set i (some Z) := List.set_set ..
      _ = arrSet a i Z := by rw [arrSet, if_pos h]
  · have h1 : arrSet a i Y
        = a ++ List.replicate (i - a.length) none ++ [some Y] := by
      rw [arrSet, if_neg h]
    have hxs : (a ++ List.replicate (i - a.length) none).length = i := by
      simp [List.length_append, List.length_replicate]
      omega
    have hlt : i < (a ++ List.replicate (i - a.length) none ++ [some Y]).length := by
      simp [List.length_append, List.length_replicate]
      omega
    calc arrSet (arrSet a i Y) i Z
        = (a ++ List.replicate (i - a.length) none ++ [some Y]).set i (some Z) := by
          rw [h1, arrSet, if_pos hlt]
      _ = a ++ List.replicate (i - a.length) none ++ [some Z] := by
          have hs := set_append_len (a ++ List.replicate (i - a.length) none)
            (some Y) (some Z)
          rw [hxs] at hs
          exact hs
      _ = arrSet a i Z := by rw [arrSet, if_neg h]

/-- Below the first missing note, `set` builds exactly the `made` chain. -/
theorem setGo_chain : ∀ (rest : List NNote) (m : NNote) (v : Tree),
    setGo v .overwrite (if m.isIdx then Tree.arr [] else Tree.map []) (m :: rest)
      = .ok (made (m :: rest) v) := by
  intro rest
  induction rest with
  | nil =>
      intro m v
      cases m <;> rfl
  | cons m' rest'' ih =>
      intro m v
      cases m with
      | key s =>
          have hg : ¬ ((Tree.map []).isArrayT && !(NNote.key s).isIdx) = true := by
            simp [Tree.isArrayT]
          have hh : ¬ (Tree.map []).hasOwnN (NNote.key s) = true := by
            simp [Tree.hasOwnN, mapFind]
          have hins : ¬ ((m' :: rest'').isEmpty && !(Tree.map []).isArrayT
              && (SetMode.overwrite == SetMode.insert)) = true := by simp
          show setGo v .overwrite (Tree.map []) (NNote.key s :: m' :: rest'') = _
          rw [setGo_cons, if_neg hg, if_neg hh, if_neg hins,
            List.isEmpty_cons, if_neg Bool.false_ne_true]
          dsimp only
          have hstep : setGo v .overwrite
              ((if ((m' :: rest'').head?.map NNote.isIdx).getD false
                then Tree.arr [] else Tree.map []) : Tree) (m' :: rest'')
              = .ok (made (m' :: rest'') v) := ih m' v
          rw [hstep, bind_ok_l]
          rfl
      | idx i =>
          have hg : ¬ ((Tree.arr []).isArrayT && !(NNote.idx i).isIdx) = true := by
            simp [Tree.isArrayT, NNote.isIdx]
          have hh : ¬ (Tree.arr []).hasOwnN (NNote.idx i) = true := by
            simp [Tree.hasOwnN]
          have hins : ¬ ((m' :: rest'').isEmpty && !(Tree.arr []).isArrayT
              && (SetMode.overwrite == SetMode.insert)) = true := by simp
          show setGo v .overwrite (Tree.arr []) (NNote.idx i :: m' :: rest'') = _
          rw [setGo_cons, if_neg hg, if_neg hh, if_neg hins,
            List.isEmpty_cons, if_neg Bool.false_ne_true]
          dsimp only
          have hstep : setGo v .overwrite
              ((if ((m' :: rest'').head?.map NNote.isIdx).getD false
                then Tree.arr [] else Tree.map []) : Tree) (m' :: rest'')
              = .ok (made (m' :: rest'') v) := ih m' v
          rw [hstep, bind_ok_l]
          rfl

/-- On a fresh path, overwrite-mode `set` succeeds and produces exactly the
grafted tree `plant`. -/
theorem setGo_fresh : ∀ (p : List NNote) (A v : Tree), fresh A p = true →
    setGo v .overwrite A p = .ok (plant A p v) := by
  intro p
  induction p with
  | nil => intro A v hf; exact absurd hf (by simp [fresh])
  | cons n rest ih =>
      intro A v hf
      rw [fresh_cons] at hf
      rw [setGo_cons, plant_cons]
      by_cases hc : A.hasOwnN n = true
      · rw [if_pos hc] at hf
        have hkm : kindMatch A n = true := by
          cases hx : kindMatch A n
          · rw [hx] at hf; simp at hf
          · rfl
        have hne : rest.isEmpty = false := by
          cases hx : rest.isEmpty
          · rfl
          · rw [hx] at hf; simp [hkm] at hf
        have hfr : fresh (A.childN n) rest = true := by
          rw [hkm, hne] at hf
          simpa using hf
        have hguard : ¬ (A.isArrayT && !n.isIdx) = true := by
          rcases kindMatch_shape A n hkm with ⟨m, k, rfl, rfl⟩ | ⟨a, i, rfl, rfl⟩
          · simp [Tree.isArrayT]
          · simp [Tree.isArrayT, NNote.isIdx]
        rw [if_neg hguard, if_pos hc, if_pos hc,
          hne, if_neg Bool.false_ne_true]
        rw [ih (A.childN n) v hfr, bind_ok_l]
      · rw [if_neg hc] at hf
        rcases freshTip_shape A n hf with ⟨m, k, rfl, rfl⟩ | ⟨a, i, rfl, rfl⟩
        · have hg : ¬ ((Tree.map m).isArrayT && !(NNote.key k).isIdx) = true := by
            simp [Tree.isArrayT]
          have hins : ¬ (rest.isEmpty && !(Tree.map m).isArrayT
              && (SetMode.overwrite == SetMode.insert)) = true := by simp
          rw [if_neg hg, if_neg hc, if_neg hc, if_neg hins]
          cases rest with
          | nil =>
              rw [List.isEmpty_nil, if_pos rfl]
              rfl
          | cons m' rest' =>
              rw [List.isEmpty_cons, if_neg Bool.false_ne_true]
              dsimp only
              have hstep : setGo v .overwrite
                  ((if ((m' :: rest').head?.map NNote.isIdx).getD false
                    then Tree.arr [] else Tree.map []) : Tree) (m' :: rest')
                  = .ok (made (m' :: rest') v) := setGo_chain rest' m' v
              rw [hstep, bind_ok_l]
        · have hg : ¬ ((Tree.arr a).isArrayT && !(NNote.idx i).isIdx) = true := by
            simp [Tree.isArrayT, NNote.isIdx]
          have hins : ¬ (rest.isEmpty && !(Tree.arr a).isArrayT
              && (SetMode.overwrite == SetMode.insert)) = true := by simp
          rw [if_neg hg, if_neg hc, if_neg hc, if_neg hins]
          cases rest with
          | nil =>
              rw [List.isEmpty_nil, if_pos rfl]
              rfl
          | cons m' rest' =>
              rw [List.isEmpty_cons, if_neg Bool.false_ne_true]
              dsimp only
              have hstep : setGo v .overwrite
                  ((if ((m' :: rest').head?.map NNote.isIdx).getD false
                    then Tree.arr [] else Tree.map []) : Tree) (m' :: rest')
                  = .ok (made (m' :: rest') v) := setGo_chain rest' m' v
              rw [hstep, bind_ok_l]

/-- Writing the same member twice keeps only the second write (on the shapes
`plant` visits). -/
theorem assign_collapse (A : Tree) (n : NNote) (Y Z : Tree)
    (h : (∃ m, A = Tree.map m) ∨ (∃ a i, A = Tree.arr a ∧ n = NNote.idx i)) :
    (A.assignN n Y).assignN n Z = A.assignN n Z := by
  rcases h with ⟨m, rfl⟩ | ⟨a, i, rfl, rfl⟩
  · show Tree.map (mapSet (mapSet m n.keyStr Y) n.keyStr Z) = _
    rw [mapSet_collapse]
    rfl
  · show Tree.arr (arrSet (arrSet a i Y) i Z) = _
    rw [arrSet_collapse]
    rfl

/-- Weaken the keyed map shape to the bare map shape. -/
theorem shape_weaken {A : Tree} {n : NNote}
    (h : (∃ m k, A = Tree.map m ∧ n = NNote.key k)
      ∨ (∃ a i, A = Tree.arr a ∧ n = NNote.idx i)) :
    (∃ m, A = Tree.map m) ∨ (∃ a i, A = Tree.arr a ∧ n = NNote.idx i) := by
  rcases h with ⟨m, k, hA, _⟩ | h2
  · exact .inl ⟨m, hA⟩
  · exact .inr h2

/-- Splitting the `hasOwn`-branch of a successful `fresh` walk. -/
theorem fresh_pos_parts (A : Tree) (n : NNote) (rest : List NNote)
    (hc : A.hasOwnN n = true) (hf : fresh A (n :: rest) = true) :
    kindMatch A n = true ∧ rest.isEmpty = false ∧ fresh (A.childN n) rest = true := by
  rw [fresh_cons, if_pos hc] at hf
  have hkm : kindMatch A n = true := by
    cases hx : kindMatch A n
    · rw [hx] at hf; simp at hf
    · rfl
  have hne : rest.isEmpty = false := by
    cases hx : rest.isEmpty
    · rfl
    · rw [hx] at hf; simp [hkm] at hf
  refine ⟨hkm, hne, ?_⟩
  rw [hkm, hne] at hf
  simpa using hf

/-- The `else`-branch of a successful `fresh` step. -/
theorem fresh_neg_tip (A : Tree) (n : NNote) (rest : List NNote)
    (hc : ¬ A.hasOwnN n = true) (hf : fresh A (n :: rest) = true) :
    freshTip A n = true := by
  rw [fresh_cons, if_neg hc] at hf
  exact hf

/-- `fresh` exits the tree strictly inside `p`, so any extension stays fresh. -/
theorem fresh_append : ∀ (p : List NNote) (A : Tree) (q : List NNote),
    fresh A p = true → fresh A (p ++ q) = true := by
  intro p
  induction p with
  | nil => intro A q hf; exact absurd hf (by simp [fresh])
  | cons n rest ih =>
      intro A q hf
      rw [List.cons_append, fresh_cons]
      by_cases hc : A.hasOwnN n = true
      · obtain ⟨hkm, hne, hfr⟩ := fresh_pos_parts A n rest hc hf
        rw [if_pos hc, hkm, ih (A.childN n) q hfr]
        cases rest with
        | nil => exact absurd hne (by simp)
        | cons r rs => simp
      · rw [if_neg hc]
        exact fresh_neg_tip A n rest hc hf

/-- Snocing a note onto a creation chain wraps the new innermost value. -/
theorem made_append : ∀ (r : List NNote) (n : NNote) (v : Tree),
    made (r ++ [n]) v = made r (made [n] v) := by
  intro r
  induction r with
  | nil => intro n v; rfl
  | cons r1 r' ih =>
      intro n v
      show (if r1.isIdx then Tree.arr [] else Tree.map []).assignN r1
          (made (r' ++ [n]) v) = _
      rw [ih]
      rfl

/-- Grafting at a fresh path extended by one note plants the one-note chain. -/
theorem plant_snoc : ∀ (p : List NNote) (A : Tree) (n : NNote) (v : Tree),
    fresh A p = true → plant A (p ++ [n]) v = plant A p (made [n] v) := by
  intro p
  induction p with
  | nil => intro A n v hf; exact absurd hf (by simp [fresh])
  | cons m rest ih =>
      intro A n v hf
      rw [List.cons_append, plant_cons, plant_cons]
      by_cases hc : A.hasOwnN m = true
      · obtain ⟨_, _, hfr⟩ := fresh_pos_parts A m rest hc hf
        rw [if_pos hc, if_pos hc, ih (A.childN m) n v hfr]
      · rw [if_neg hc, if_neg hc, made_append]

/-- Planting below a creation chain pushes the graft to the chain's tip. -/
theorem made_plant : ∀ (r : List NNote) (X : Tree) (q : List NNote) (v : Tree),
    plant (made r X) (r ++ q) v = made r (plant X q v) := by
  intro r
  induction r with
  | nil => intro X q v; rfl
  | cons r1 r' ih =>
      intro X q v
      have hshape := emptyFor_shape r1
      have hread := assign_read (if r1.isIdx then Tree.arr [] else Tree.map [])
        r1 (made r' X) hshape
      show plant ((if r1.isIdx then Tree.arr [] else Tree.map []).assignN r1
          (made r' X)) (r1 :: (r' ++ q)) v = _
      rw [plant_cons, if_pos hread.1, hread.2, ih X q v,
        assign_collapse _ r1 _ _ hshape]
      rfl

/-- Planting below an already planted fresh subtree plants inside it. -/
theorem plant_plant : ∀ (p : List NNote) (A X : Tree) (q : List NNote) (v : Tree),
    (fresh A p = true ∨ p = []) →
    plant (plant A p X) (p ++ q) v = plant A p (plant X q v) := by
  intro p
  induction p with
  | nil => intro A X q v _; rfl
  | cons m rest ih =>
      intro A X q v hfd
      have hf : fresh A (m :: rest) = true := by
        rcases hfd with h | h
        · exact h
        · exact absurd h (by simp)
      by_cases hc : A.hasOwnN m = true
      · obtain ⟨hkm, hne, hfr⟩ := fresh_pos_parts A m rest hc hf
        have hsh := hasOwn_shape A m hc
        have hread := assign_read A m (plant (A.childN m) rest X) hsh
        have e1 : plant A (m :: rest) X
            = A.assignN m (plant (A.childN m) rest X) := by
          rw [plant_cons, if_pos hc]
        have e2 : plant A (m :: rest) (plant X q v)
            = A.assignN m (plant (A.childN m) rest (plant X q v)) := by
          rw [plant_cons, if_pos hc]
        rw [e1, e2, List.cons_append, plant_cons, if_pos hread.1, hread.2,
          ih (A.childN m) X q v (.inl hfr),
          assign_collapse A m _ _ hsh]
      · have htip := fresh_neg_tip A m rest hc hf
        have hsh := shape_weaken (freshTip_shape A m htip)
        have hread := assign_read A m (made rest X) hsh
        have e1 : plant A (m :: rest) X = A.assignN m (made rest X) := by
          rw [plant_cons, if_neg hc]
        have e2 : plant A (m :: rest) (plant X q v)
            = A.assignN m (made rest (plant X q v)) := by
          rw [plant_cons, if_neg hc]
        rw [e1, e2, List.cons_append, plant_cons, if_pos hread.1, hread.2,
          made_plant rest X q v,
          assign_collapse A m _ _ hsh]

/-- A creation chain ending at a clean extension point is itself fresh for the
extended path. -/
theorem fresh_made : ∀ (r : List NNote) (X : Tree) (n : NNote),
    X.hasOwnN n = false → freshTip X n = true →
    fresh (made r X) (r ++ [n]) = true := by
  intro r
  induction r with
  | nil =>
      intro X n hO htip
      show fresh X [n] = true
      rw [fresh_cons, if_neg (by rw [hO]; exact Bool.false_ne_true)]
      exact htip
  | cons r1 r' ih =>
      intro X n hO htip
      have hshape := emptyFor_shape r1
      have hread := assign_read (if r1.isIdx then Tree.arr [] else Tree.map [])
        r1 (made r' X) hshape
      have hkm : kindMatch ((if r1.isIdx then Tree.arr [] else Tree.map []).assignN
          r1 (made r' X)) r1 = true := by
        cases r1 <;> rfl
      show fresh ((if r1.isIdx then Tree.arr [] else Tree.map []).assignN r1
          (made r' X)) (r1 :: (r' ++ [n])) = true
      rw [fresh_cons, if_pos hread.1, hkm, hread.2, ih X n hO htip]
      have hne2 : (r' ++ [n]).isEmpty = false := by cases r' <;> rfl
      rw [hne2]
      rfl

/-- Planting a subtree with a clean extension point keeps the extended path
fresh. -/
theorem fresh_plant : ∀ (p : List NNote) (A X : Tree) (n : NNote),
    (fresh A p = true ∨ p = []) →
    X.hasOwnN n = false → freshTip X n = true →
    fresh (plant A p X) (p ++ [n]) = true := by
  intro p
  induction p with
  | nil =>
      intro A X n _ hO htip
      show fresh X [n] = true
      rw [fresh_cons, if_neg (by rw [hO]; exact Bool.false_ne_true)]
      exact htip
  | cons m rest ih =>
      intro A X n hfd hO htip
      have hf : fresh A (m :: rest) = true := by
        rcases hfd with h | h
        · exact h
        · exact absurd h (by simp)
      by_cases hc : A.hasOwnN m = true
      · obtain ⟨hkm, hne, hfr⟩ := fresh_pos_parts A m rest hc hf
        have hsh := hasOwn_shape A m hc
        have hread := assign_read A m (plant (A.childN m) rest X) hsh
        have e1 : plant A (m :: rest) X
            = A.assignN m (plant (A.childN m) rest X) := by
          rw [plant_cons, if_pos hc]
        rw [e1, List.cons_append, fresh_cons, if_pos hread.1, hread.2,
          assign_kindMatch A m _ hkm,
          ih (A.childN m) X n (.inl hfr) hO htip]
        have hne2 : (rest ++ [n]).isEmpty = false := by cases rest <;> rfl
        rw [hne2]
        rfl
      · have htipA := fresh_neg_tip A m rest hc hf
        have hsh := shape_weaken (freshTip_shape A m htipA)
        have hread := assign_read A m (made rest X) hsh
        have e1 : plant A (m :: rest) X = A.assignN m (made rest X) := by
          rw [plant_cons, if_neg hc]
        rw [e1, List.cons_append, fresh_cons, if_pos hread.1, hread.2,
          freshTip_kindMatch_assign A m _ htipA,
          fresh_made rest X n hO htip]
        have hne2 : (rest ++ [n]).isEmpty = false := by cases rest <;> rfl
        rw [hne2]
        rfl

/-- The append index of an array is never a defined member. -/
theorem hasOwn_arr_len (a : List (Option Tree)) :
    (Tree.arr a).hasOwnN (NNote.idx a.length) = false := by
  show (match a[a.length]? with
        | some (some _) => true
        | _ => false) = false
  rw [List.getElem?_eq_none (le_refl a.length)]

theorem mapFind_append_none (xs ys : List (String × Tree)) (k : String)
    (h : mapFind xs k = none) : mapFind (xs ++ ys) k = mapFind ys k := by
  induction xs with
  | nil => rfl
  | cons e r ih =>
      rw [mapFind] at h
      by_cases h0 : (e.1 == k) = true
      · rw [if_pos h0] at h; exact absurd h (by simp)
      · rw [if_neg h0] at h
        rw [List.cons_append, mapFind, if_neg h0]
        exact ih h

/-- The head key of a duplicate-free entry list is absent from the tail. -/
theorem nodup_head_absent (k1 : String) (t1 : Tree) (es : List (String × Tree))
    (h : nodupKeys ((k1, t1) :: es) = true) :
    ∀ e ∈ es, mapFind [(k1, t1)] e.1 = none := by
  intro e he
  have h1 : (es.any (fun e => e.1 == k1)) = false := by
    simp only [nodupKeys, Bool.and_eq_true] at h
    have := h.1
    cases hx : es.any (fun e => e.1 == k1)
    · rfl
    · rw [hx] at this; exact absurd this (by simp)
  have h2 : (e.1 == k1) = false := by
    cases hx : e.1 == k1
    · rfl
    · exact absurd (List.any_eq_true.mpr ⟨e, he, hx⟩) (by rw [h1]; simp)
  have h3 : (k1 == e.1) = false := by
    cases hx : k1 == e.1
    · rfl
    · exfalso
      have hk : k1 = e.1 := eq_of_beq hx
      rw [hk] at h2
      simp at h2
  show (if ((k1, t1).1 == e.1) = true then some (k1, t1).2
        else mapFind [] e.1) = none
  rw [if_neg (by rw [h3]; exact Bool.false_ne_true)]
  rfl

theorem nodupKeys_tail (k : String) (t : Tree) (es : List (String × Tree))
    (h : nodupKeys ((k, t) :: es) = true) : nodupKeys es = true := by
  simp only [nodupKeys, Bool.and_eq_true] at h
  exact h.2

theorem goodT_map_parts (m : List (String × Tree))
    (h : goodT (Tree.map m) = true) :
    m.isEmpty = false ∧ nodupKeys m = true ∧ goodEntries m = true := by
  simp only [goodT, Bool.and_eq_true] at h
  refine ⟨?_, h.1.2, h.2⟩
  have h1 := h.1.1
  cases hx : m.isEmpty
  · rfl
  · rw [hx] at h1; exact absurd h1 (by simp)

theorem goodT_arr_parts (a : List (Option Tree))
    (h : goodT (Tree.arr a) = true) :
    a.isEmpty = false ∧ goodItems a = true := by
  simp only [goodT, Bool.and_eq_true] at h
  refine ⟨?_, h.2⟩
  have h1 := h.1
  cases hx : a.isEmpty
  · rfl
  · rw [hx] at h1; exact absurd h1 (by simp)

theorem foldSet_nil (A : Tree) : foldSet A [] = .ok A := rfl

theorem foldSet_cons (A : Tree) (x : List NNote × Val)
    (xs : List (List NNote × Val)) :
    foldSet A (x :: xs)
      = setN A x.1 (Tree.leaf x.2) .overwrite >>= fun B => foldSet B xs := rfl

theorem foldSet_append (A : Tree) (xs ys : List (List NNote × Val)) :
    foldSet A (xs ++ ys) = foldSet A xs >>= fun B => foldSet B ys := by
  induction xs generalizing A with
  | nil => rfl
  | cons x xs' ih =>
      rw [List.cons_append, foldSet_cons, foldSet_cons]
      cases hx : setN A x.1 (Tree.leaf x.2) .overwrite with
      | error e => rfl
      | ok B => exact ih B

/-! ### Split of a rendered path

The parser recovers exactly the rendered notes of an identifier-keyed path:
the continuation after an identifier or index segment starts with `.`, `[`
or nothing, which no identifier or digit run can absorb. -/

/-- The per-note requirement of a good walk: index notes are free; key notes
are identifiers free of the reserved substrings. -/
def identNote : NNote → Bool
  | .key s => identKey s
  | .idx _ => true

def noteok (n : NNote) : Bool := identNote n && !denyNote n

theorem all_ne_head {a : Char} {as : List Char} {c : Char}
    (h : (a :: as : List Char).all (fun x => !(x == c)) = true) :
    (a == c) = false := by
  have h1 : (!(a == c)) = true := by
    simp only [List.all_cons, Bool.and_eq_true] at h
    exact h.1
  cases hx : a == c
  · rfl
  · rw [hx] at h1; exact Bool.noConfusion h1

theorem digitChar_spec : ∀ (d : Nat), d < 10 →
    (digitChar d).toNat - 48 = d ∧ (digitChar d).isDigit = true := by
  intro d hd
  interval_cases d <;> exact ⟨by decide, by decide⟩

theorem natDigits_succ (f n : Nat) :
    natDigits (f + 1) n = if n < 10 then [digitChar n]
      else natDigits f (n / 10) ++ [digitChar (n % 10)] := rfl

theorem decimalToNat_snoc (xs : List Char) (c : Char) :
    decimalToNat (xs ++ [c]) = decimalToNat xs * 10 + (c.toNat - 48) := by
  rw [decimalToNat, decimalToNat, List.foldl_append]
  rfl

theorem natDigits_spec : ∀ (fuel n : Nat), n < fuel →
    decimalToNat (natDigits fuel n) = n
    ∧ (natDigits fuel n).all Char.isDigit = true
    ∧ natDigits fuel n ≠ [] := by
  intro fuel
  induction fuel with
  | zero => intro n h; omega
  | succ f ih =>
      intro n h
      by_cases h10 : n < 10
      · obtain ⟨hv, hdg⟩ := digitChar_spec n h10
        rw [natDigits_succ, if_pos h10]
        refine ⟨?_, by simp [hdg], by simp⟩
        show 0 * 10 + ((digitChar n).toNat - 48) = n
        rw [hv]
        omega
      · rw [natDigits_succ, if_neg h10]
        have hdiv : n / 10 < f := by
          have h2 : n / 10 < n := Nat.div_lt_self (by omega) (by omega)
          omega
        obtain ⟨ihv, ihd, _⟩ := ih (n / 10) hdiv
        obtain ⟨hv, hdg⟩ := digitChar_spec (n % 10) (Nat.mod_lt n (by omega))
        refine ⟨?_, ?_, by simp⟩
        · rw [decimalToNat_snoc, ihv, hv]
          have := Nat.div_add_mod n 10
          omega
        · rw [List.all_append]
          simp [ihd, hdg]

theorem natDecimal_spec (n : Nat) :
    decimalToNat (natDecimal n) = n
    ∧ (natDecimal n).all Char.isDigit = true
    ∧ natDecimal n ≠ [] := natDigits_spec (n + 1) n (by omega)

/-- A run of `q`-characters followed by anything not starting with a
`q`-character spans exactly itself. -/
theorem span_all (q : Char → Bool) : ∀ (xs tail : List Char), xs.all q = true →
    (∀ c, tail.head? = some c → q c = false) →
    (xs ++ tail).takeWhile q = xs ∧ (xs ++ tail).dropWhile q = tail := by
  intro xs
  induction xs with
  | nil =>
      intro tail _ htail
      cases tail with
      | nil => exact ⟨rfl, rfl⟩
      | cons c cs =>
          have hq : q c = false := htail c rfl
          constructor
          · show List.takeWhile q (c :: cs) = []
            rw [List.takeWhile_cons, hq]
            rfl
          · show List.dropWhile q (c :: cs) = c :: cs
            rw [List.dropWhile_cons, hq]
            rfl
  | cons x xs' ih =>
      intro tail hall htail
      have hx : q x = true ∧ xs'.all q = true := by simpa using hall
      obtain ⟨h1, h2⟩ := ih tail hx.2 htail
      constructor
      · show List.takeWhile q (x :: (xs' ++ tail)) = x :: xs'
        rw [List.takeWhile_cons, hx.1, h1]
        rfl
      · show List.dropWhile q (x :: (xs' ++ tail)) = tail
        rw [List.dropWhile_cons, hx.1, h2]
        rfl

theorem identKey_parts (k : String) (hk : identKey k = true) :
    ∃ c cs, k.data = c :: cs ∧ identStart c = true ∧ cs.all identChar = true := by
  cases hd : k.data with
  | nil =>
      rw [identKey, hd] at hk
      exact Bool.noConfusion hk
  | cons c cs =>
      rw [identKey, hd] at hk
      have hk' : (identStart c && cs.all identChar) = true := hk
      rw [Bool.and_eq_true] at hk'
      exact ⟨c, cs, rfl, hk'.1, hk'.2⟩

theorem takeIdent_cons (c : Char) (l : List Char) :
    takeIdent (c :: l) = (if identStart c then
      some (.key (String.mk (c :: l.takeWhile identChar)), l.dropWhile identChar)
    else none) := rfl

theorem takeIdent_render (k : String) (tail : List Char)
    (hk : identKey k = true)
    (htail : ∀ c, tail.head? = some c → identChar c = false) :
    takeIdent (k.data ++ tail) = some (.key k, tail) := by
  obtain ⟨c, cs, hdata, hstart, hrest⟩ := identKey_parts k hk
  rw [hdata, List.cons_append, takeIdent_cons, if_pos hstart]
  obtain ⟨ht, hd⟩ := span_all identChar cs tail hrest htail
  rw [ht, hd, ← hdata]

theorem takeBracket_cons (c : Char) (cs : List Char) :
    takeBracket ('[' :: c :: cs)
      = (if c.isDigit then
          match (c :: cs).dropWhile Char.isDigit with
          | ']' :: rest =>
              some (.idx (decimalToNat ((c :: cs).takeWhile Char.isDigit)), rest)
          | _ => none
        else if c == '"' || c == '\'' then
          match lastClose c cs with
          | some (inner, rest) => some (.key (String.mk inner), rest)
          | none => none
        else none) := rfl

theorem takeBracket_render (i : Nat) (tail : List Char) :
    takeBracket ('[' :: (natDecimal i ++ ']' :: tail)) = some (.idx i, tail) := by
  obtain ⟨hval, hdig, hne⟩ := natDecimal_spec i
  obtain ⟨d, ds, hd⟩ : ∃ d ds, natDecimal i = d :: ds := by
    cases hx : natDecimal i
    · exact absurd hx hne
    · exact ⟨_, _, rfl⟩
  rw [hd] at hval hdig ⊢
  have hdd : d.isDigit = true := by
    simp only [List.all_cons, Bool.and_eq_true] at hdig
    exact hdig.1
  have hspan := span_all Char.isDigit (d :: ds) (']' :: tail) hdig
    (fun c hc => by
      have hc' : c = ']' := by injection hc with h; exact h.symm
      rw [hc']
      decide)
  have hsp1 := hspan.1
  have hsp2 := hspan.2
  rw [List.cons_append] at hsp1 hsp2
  rw [List.cons_append, takeBracket_cons, if_pos hdd, hsp2]
  rw [hsp1, hval]
  rfl

theorem takeIdent_bracket (l : List Char) : takeIdent ('[' :: l) = none := by
  rw [takeIdent_cons, if_neg (by decide)]

theorem parseSeg_true (s : List Char) :
    parseSeg true s = (match takeIdent s with
      | some r => some r
      | none => takeBracket s) := rfl

theorem parseSeg_dot (cs : List Char) : parseSeg false ('.' :: cs) = takeIdent cs := rfl

theorem parseSeg_false_bracket (cs : List Char) :
    parseSeg false ('[' :: cs) = takeBracket ('[' :: cs) := rfl

theorem parseNotes_nil (fuel : Nat) (first : Bool) :
    parseNotes fuel first [] = if first then none else some [] := by
  cases fuel <;> rfl

theorem parseNotes_cons (f : Nat) (first : Bool) (c : Char) (cs : List Char) :
    parseNotes (f + 1) first (c :: cs)
      = (match parseSeg first (c :: cs) with
        | none => none
        | some (n, rest) => (parseNotes f false rest).map (fun ns => n :: ns)) := rfl

/-- Heads of non-first rendered segments are `.` or `[`: never identifier
characters. -/
theorem renderChars_head (m : NNote) (rest : List NNote) :
    ∃ c l, renderChars false (m :: rest) = c :: l ∧ (c = '.' ∨ c = '[') := by
  cases m with
  | key s =>
      exact ⟨'.', s.data ++ renderChars false rest, rfl, .inl rfl⟩
  | idx i =>
      exact ⟨'[', (natDecimal i ++ [']']) ++ renderChars false rest, rfl, .inr rfl⟩

theorem render_head_not_ident (rest : List NNote) :
    ∀ c, (renderChars false rest).head? = some c → identChar c = false := by
  cases rest with
  | nil => intro c h; exact Option.noConfusion h
  | cons m rest' =>
      intro c h
      obtain ⟨c0, l0, heq, hc0⟩ := renderChars_head m rest'
      rw [heq] at h
      have hc : c0 = c := by injection h
      rcases hc0 with rfl | rfl <;> rw [← hc] <;> decide

theorem renderChars_idx (first : Bool) (i : Nat) (rest : List NNote) :
    renderChars first (NNote.idx i :: rest)
      = '[' :: (natDecimal i ++ (']' :: renderChars false rest)) := by
  cases first with
  | false =>
      show ('[' :: (natDecimal i ++ [']'])) ++ renderChars false rest = _
      rw [List.cons_append, List.append_assoc]
      rfl
  | true =>
      show ('[' :: (natDecimal i ++ [']'])) ++ renderChars false rest = _
      rw [List.cons_append, List.append_assoc]
      rfl

/-- The parser reads back exactly the rendered identifier-keyed path. -/
theorem parse_render : ∀ (p : List NNote) (fuel : Nat) (first : Bool),
    p.length ≤ fuel → p.all identNote = true → (first = true → p ≠ []) →
    parseNotes fuel first (renderChars first p) = some p := by
  intro p
  induction p with
  | nil =>
      intro fuel first _ _ hfe
      cases first with
      | true => exact absurd rfl (hfe rfl)
      | false =>
          show parseNotes fuel false [] = some []
          rw [parseNotes_nil]
          rfl
  | cons n rest ih =>
      intro fuel first hlen hall hfe
      have hall' : identNote n = true ∧ rest.all identNote = true := by
        simpa using hall
      cases fuel with
      | zero =>
          rw [List.length_cons] at hlen
          omega
      | succ f =>
          have hlen' : rest.length ≤ f := by
            rw [List.length_cons] at hlen
            omega
          have hrec := ih f false hlen' hall'.2 (fun h => Bool.noConfusion h)
          cases n with
          | key k =>
              have htail := render_head_not_ident rest
              have hTI := takeIdent_render k (renderChars false rest)
                hall'.1 htail
              obtain ⟨c, cs, hdata, _, _⟩ := identKey_parts k hall'.1
              cases first with
              | true =>
                  have hrc : renderChars true (NNote.key k :: rest)
                      = k.data ++ renderChars false rest := rfl
                  rw [hrc, hdata, List.cons_append, parseNotes_cons]
                  rw [hdata, List.cons_append] at hTI
                  rw [parseSeg_true, hTI]
                  dsimp only
                  rw [hrec]
                  rfl
              | false =>
                  have hrc : renderChars false (NNote.key k :: rest)
                      = '.' :: (k.data ++ renderChars false rest) := rfl
                  rw [hrc, parseNotes_cons, parseSeg_dot, hTI]
                  dsimp only
                  rw [hrec]
                  rfl
          | idx i =>
              have hTB := takeBracket_render i (renderChars false rest)
              rw [renderChars_idx, parseNotes_cons]
              cases first with
              | true =>
                  rw [parseSeg_true, takeIdent_bracket]
                  dsimp only
                  rw [hTB]
                  dsimp only
                  rw [hrec]
                  rfl
              | false =>
                  rw [parseSeg_false_bracket, hTB]
                  dsimp only
                  rw [hrec]
                  rfl

theorem render_len : ∀ (p : List NNote) (first : Bool), p.all identNote = true →
    p.length ≤ (renderChars first p).length := by
  intro p
  induction p with
  | nil => intro first _; simp [renderChars]
  | cons n rest ih =>
      intro first hall
      have hall' : identNote n = true ∧ rest.all identNote = true := by
        simpa using hall
      have h2 := ih false hall'.2
      have h1 : 1 ≤ (renderNote first n).length := by
        cases n with
        | key k =>
            obtain ⟨c, cs, hdata, _, _⟩ := identKey_parts k hall'.1
            cases first with
            | false => show 1 ≤ ('.' :: k.data).length; simp
            | true =>
                show 1 ≤ k.data.length
                rw [hdata]
                simp
        | idx i => cases first <;> simp [renderNote]
      show (n :: rest).length ≤ (renderNote first n ++ renderChars false rest).length
      rw [List.length_cons, List.length_append]
      omega

/-- `split(join(p)) = p` on non-empty identifier-keyed paths (spec section 7
lists this as the split/join law; the code realizes it through `reVALIDATOR`
and `reMATCHER`). -/
theorem splitN_render (p : List NNote) (hne : p ≠ [])
    (hip : p.all identNote = true) : splitN (renderPath p) = .ok p := by
  have hd : (renderPath p).data = renderChars true p := rfl
  show (match parseNotes ((renderPath p).data.length + 1) true (renderPath p).data with
        | some ns => Except.ok ns
        | none => Except.error Err.invalidSyntax) = Except.ok p
  rw [hd]
  rw [parse_render p ((renderChars true p).length + 1) true
    (by have := render_len p true hip; omega) hip (fun _ => hne)]

/-! ### Reserved substrings never appear in rendered good paths

The three reserved words contain no `.`, `[`, `]` and no digit, so an
occurrence in a rendered notation cannot cross a separator and cannot sit in
a digit run: it lies inside a single key. -/

theorem lead_sep : ∀ (pat : List Char) (c : Char) (xs ys : List Char),
    pat.all (fun a => !(a == c)) = true →
    leadsWith pat (xs ++ c :: ys) = leadsWith pat xs := by
  intro pat c
  induction pat with
  | nil => intro xs ys _; rfl
  | cons a as ih =>
      intro xs ys hall
      have h' : (!(a == c)) = true ∧ as.all (fun a => !(a == c)) = true := by
        simpa using hall
      have h1 : (a == c) = false := all_ne_head hall
      cases xs with
      | nil =>
          show ((a == c) && leadsWith as ys) = leadsWith (a :: as) []
          rw [h1]
          rfl
      | cons x xs' =>
          show ((a == x) && leadsWith as (xs' ++ c :: ys))
              = ((a == x) && leadsWith as xs')
          rw [ih xs' ys h'.2]

theorem hasSub_sep : ∀ (pat : List Char) (c : Char) (xs ys : List Char),
    pat.all (fun a => !(a == c)) = true →
    hasSub pat (xs ++ c :: ys) = (hasSub pat xs || hasSub pat ys) := by
  intro pat c xs
  induction xs with
  | nil =>
      intro ys hall
      cases pat with
      | nil => rfl
      | cons a as =>
          have h1 : (a == c) = false := all_ne_head hall
          show (((a == c) && leadsWith as ys) || hasSub (a :: as) ys) = _
          rw [h1]
          rfl
  | cons x xs' ih =>
      intro ys hall
      show (leadsWith pat (x :: (xs' ++ c :: ys)) || hasSub pat (xs' ++ c :: ys))
          = ((leadsWith pat (x :: xs') || hasSub pat xs') || hasSub pat ys)
      rw [ih ys hall]
      have hl := lead_sep pat c (x :: xs') ys hall
      rw [List.cons_append] at hl
      rw [hl, Bool.or_assoc]

theorem hasSub_digits : ∀ (a : Char) (as l : List Char),
    a.isDigit = false → l.all Char.isDigit = true → hasSub (a :: as) l = false := by
  intro a as l ha
  induction l with
  | nil => intro _; rfl
  | cons d r ih =>
      intro hall
      have h' : d.isDigit = true ∧ r.all Char.isDigit = true := by simpa using hall
      have had : (a == d) = false := by
        cases hx : a == d
        · rfl
        · exfalso
          have he : a = d := eq_of_beq hx
          rw [he, h'.1] at ha
          exact Bool.noConfusion ha
      show (((a == d) && leadsWith as r) || hasSub (a :: as) r) = false
      rw [had, ih h'.2]
      rfl

theorem hasSub_cons_ne (a : Char) (as : List Char) (c : Char) (l : List Char)
    (h : (a == c) = false) : hasSub (a :: as) (c :: l) = hasSub (a :: as) l := by
  show (((a == c) && leadsWith as l) || hasSub (a :: as) l) = _
  rw [h]
  rfl

theorem hasSub_render : ∀ (p : List NNote) (a : Char) (as : List Char),
    (a :: as : List Char).all (fun x => !(x == '.')) = true →
    (a :: as : List Char).all (fun x => !(x == '[')) = true →
    (a :: as : List Char).all (fun x => !(x == ']')) = true →
    a.isDigit = false →
    (∀ s, NNote.key s ∈ p → hasSub (a :: as) s.data = false) →
    ∀ first, hasSub (a :: as) (renderChars first p) = false := by
  intro p
  induction p with
  | nil => intro a as _ _ _ _ _ first; rfl
  | cons n rest ih =>
      intro a as hdot hlb hrb hdig hkeys first
      have ihr := ih a as hdot hlb hrb hdig
        (fun s hs => hkeys s (List.mem_cons_of_mem n hs)) false
      cases n with
      | key k =>
          have hk : hasSub (a :: as) k.data = false :=
            hkeys k (List.mem_cons_self _ _)
          have hcore : hasSub (a :: as) (k.data ++ renderChars false rest)
              = false := by
            cases rest with
            | nil =>
                rw [show renderChars false ([] : List NNote) = [] from rfl,
                  List.append_nil]
                exact hk
            | cons m rest' =>
                obtain ⟨c0, l0, heq, hc0⟩ := renderChars_head m rest'
                rw [heq]
                have hpc : (a :: as : List Char).all (fun x => !(x == c0)) = true := by
                  rcases hc0 with rfl | rfl
                  · exact hdot
                  · exact hlb
                rw [hasSub_sep (a :: as) c0 k.data l0 hpc]
                have hl0 : hasSub (a :: as) l0 = false := by
                  rw [heq, hasSub_cons_ne a as c0 l0 (all_ne_head hpc)] at ihr
                  exact ihr
                rw [hk, hl0]
                rfl
          cases first with
          | true =>
              show hasSub (a :: as) (k.data ++ renderChars false rest) = false
              exact hcore
          | false =>
              show hasSub (a :: as) ('.' :: (k.data ++ renderChars false rest))
                  = false
              rw [hasSub_cons_ne a as '.' _ (all_ne_head hdot)]
              exact hcore
      | idx i =>
          obtain ⟨_, hdigs, _⟩ := natDecimal_spec i
          have hd0 : hasSub (a :: as) (natDecimal i) = false :=
            hasSub_digits a as (natDecimal i) hdig hdigs
          rw [renderChars_idx]
          rw [hasSub_cons_ne a as '[' _ (all_ne_head hlb)]
          rw [hasSub_sep (a :: as) ']' (natDecimal i) (renderChars false rest) hrb]
          rw [hd0, ihr]
          rfl

/-! ### Good walks yield identifier-keyed, reserved-free, non-empty paths -/

theorem noteok_parts {n : NNote} (h : noteok n = true) :
    identNote n = true ∧ denyNote n = false := by
  rw [noteok, Bool.and_eq_true] at h
  refine ⟨h.1, ?_⟩
  have h2 := h.2
  cases hx : denyNote n
  · rfl
  · rw [hx] at h2; exact Bool.noConfusion h2

theorem all_noteok_ident : ∀ (p : List NNote), p.all noteok = true →
    p.all identNote = true := by
  intro p h
  rw [List.all_eq_true] at h ⊢
  intro n hn
  exact (noteok_parts (h n hn)).1

theorem denyStr_render (p : List NNote) (hok : p.all noteok = true) :
    denyStr (renderPath p) = false := by
  have hkeys : ∀ s, NNote.key s ∈ p → denyStr s = false := by
    intro s hs
    rw [List.all_eq_true] at hok
    exact (noteok_parts (hok _ hs)).2
  have hcomp : ∀ s, denyStr s = false →
      hasSub "__proto__".data s.data = false
      ∧ hasSub "prototype".data s.data = false
      ∧ hasSub "constructor".data s.data = false := by
    intro s h
    rw [denyStr] at h
    cases h1 : hasSub "__proto__".data s.data <;>
      cases h2 : hasSub "prototype".data s.data <;>
        cases h3 : hasSub "constructor".data s.data <;>
          rw [h1, h2, h3] at h <;> first | exact ⟨rfl, rfl, rfl⟩ | exact Bool.noConfusion h
  have hp1 : "__proto__".data = '_' :: "_proto__".data := rfl
  have hp2 : "prototype".data = 'p' :: "rototype".data := rfl
  have hp3 : "constructor".data = 'c' :: "onstructor".data := rfl
  have e1 : hasSub "__proto__".data (renderChars true p) = false := by
    rw [hp1]
    exact hasSub_render p '_' "_proto__".data (by decide) (by decide) (by decide)
      (by decide) (fun s hs => by
        have := (hcomp s (hkeys s hs)).1
        rw [hp1] at this
        exact this) true
  have e2 : hasSub "prototype".data (renderChars true p) = false := by
    rw [hp2]
    exact hasSub_render p 'p' "rototype".data (by decide) (by decide) (by decide)
      (by decide) (fun s hs => by
        have := (hcomp s (hkeys s hs)).2.1
        rw [hp2] at this
        exact this) true
  have e3 : hasSub "constructor".data (renderChars true p) = false := by
    rw [hp3]
    exact hasSub_render p 'c' "onstructor".data (by decide) (by decide) (by decide)
      (by decide) (fun s hs => by
        have := (hcomp s (hkeys s hs)).2.2
        rw [hp3] at this
        exact this) true
  show denyStr (String.mk (renderChars true p)) = false
  rw [denyStr]
  have hds : (String.mk (renderChars true p)).data = renderChars true p := rfl
  rw [hds, e1, e2, e3]
  rfl

mutual

/-- Flat entries of a good subtree under a good prefix carry good, non-empty
paths. -/
theorem goodFlatT : ∀ (t : Tree) (pfx : List NNote), goodT t = true →
    pfx.all noteok = true → ∀ pv ∈ flat pfx t,
    pv.1.all noteok = true ∧ (pfx ≠ [] → pv.1 ≠ [])
  | .leaf v, pfx => by
      intro _ hpfx pv hm
      have hm' : pv ∈ [(pfx, v)] := hm
      obtain rfl := List.mem_singleton.mp hm'
      exact ⟨hpfx, fun h => h⟩
  | .map m, pfx => by
      intro hg hpfx pv hm
      have h := goodFlatEntries m pfx (goodT_map_parts m hg).2.2 hpfx pv hm
      exact ⟨h.1, fun _ => h.2⟩
  | .arr a, pfx => by
      intro hg hpfx pv hm
      rw [flat_arr_def] at hm
      rcases List.mem_flatten.mp hm with ⟨seg, hseg, hpv⟩
      have h := goodFlatItems a pfx 0 (goodT_arr_parts a hg).2 hpfx seg hseg pv hpv
      exact ⟨h.1, fun _ => h.2⟩

theorem goodFlatEntries : ∀ (es : List (String × Tree)) (pfx : List NNote),
    goodEntries es = true → pfx.all noteok = true →
    ∀ pv ∈ walkMap false pfx es, pv.1.all noteok = true ∧ pv.1 ≠ []
  | [], pfx => by intro _ _ pv hm; exact absurd hm (by simp [walkMap])
  | (k, t) :: es', pfx => by
      intro hge hpfx pv hm
      simp only [goodEntries, Bool.and_eq_true] at hge
      rw [walkMap_cons] at hm
      have hnk : noteok (NNote.key k) = true := by
        show (identKey k && !denyNote (NNote.key k)) = true
        rw [hge.1.1.1, hge.1.1.2]
        rfl
      have hpfx' : (pfx ++ [NNote.key k]).all noteok = true := by
        rw [List.all_append, hpfx]
        simp [hnk]
      rcases List.mem_append.mp hm with h1 | h2
      · have h := goodFlatT t (pfx ++ [NNote.key k]) hge.1.2 hpfx' pv h1
        exact ⟨h.1, h.2 (by simp)⟩
      · exact goodFlatEntries es' pfx hge.2 hpfx pv h2

theorem goodFlatItems : ∀ (a : List (Option Tree)) (pfx : List NNote) (i : Nat),
    goodItems a = true → pfx.all noteok = true →
    ∀ seg ∈ walkArrSegs false pfx i a, ∀ pv ∈ seg,
    pv.1.all noteok = true ∧ pv.1 ≠ []
  | [], pfx, i => by intro _ _ seg hs; exact absurd hs (by simp [walkArrSegs])
  | none :: a', pfx, i => by
      intro hgi
      exact absurd hgi (by simp [goodItems])
  | some t :: a', pfx, i => by
      intro hgi hpfx seg hs pv hpv
      simp only [goodItems, Bool.and_eq_true] at hgi
      rw [walkSegs_cons_some] at hs
      have hpfx' : (pfx ++ [NNote.idx i]).all noteok = true := by
        rw [List.all_append, hpfx]
        simp [noteok, identNote, denyNote]
      rcases List.mem_cons.mp hs with rfl | h2
      · have h := goodFlatT t (pfx ++ [NNote.idx i]) hgi.1 hpfx' pv hpv
        exact ⟨h.1, h.2 (by simp)⟩
      · exact goodFlatItems a' pfx (i + 1) hgi.2 hpfx seg h2 pv hpv

end

/-! ### The merge fold over good rendered entries is the parsed fold -/

theorem mergeFlatS_cons (A : Tree) (s : String) (v : Val)
    (svs : List (String × Val)) :
    mergeFlatS A ((s, v) :: svs)
      = (if denyStr s then Except.ok A
         else splitN s >>= fun notes => setN A notes (Tree.leaf v) .overwrite)
        >>= fun B => mergeFlatS B svs := rfl

/-- When every entry's rendered notation is reserved-free and re-parses to
its path, `merge` skips nothing and is the plain fold of `set` calls. -/
theorem mergeFlatS_fold : ∀ (ps : List (List NNote × Val)) (A : Tree),
    (∀ pv ∈ ps, denyStr (renderPath pv.1) = false
      ∧ splitN (renderPath pv.1) = .ok pv.1) →
    mergeFlatS A (ps.map (fun pv => (renderPath pv.1, pv.2))) = foldSet A ps := by
  intro ps
  induction ps with
  | nil => intro A _; rfl
  | cons pv ps' ih =>
      intro A h
      obtain ⟨hd, hsp⟩ := h pv (List.mem_cons_self _ _)
      simp only [List.map_cons]
      rw [mergeFlatS_cons, hd, if_neg Bool.false_ne_true, hsp, bind_ok_l]
      rw [foldSet_cons]
      cases hs : setN A pv.1 (Tree.leaf pv.2) .overwrite with
      | error e => rfl
      | ok B => exact ih B (fun q hq => h q (List.mem_cons_of_mem _ hq))

mutual

/-- Round-trip engine: on a fresh path the flat leaf list of a good subtree
`set`s back to exactly the grafted subtree. -/
theorem mainT : ∀ (T : Tree), goodT T = true → ∀ (A : Tree) (p : List NNote),
    fresh A p = true → foldSet A (flat p T) = .ok (plant A p T)
  | .leaf v => by
      intro _ A p hf
      show (setN A p (Tree.leaf v) .overwrite >>= fun B => foldSet B []) = _
      have hset : setN A p (Tree.leaf v) .overwrite
          = .ok (plant A p (Tree.leaf v)) := by
        cases p with
        | nil => exact absurd hf (by simp [fresh])
        | cons n rest => exact setGo_fresh (n :: rest) A (Tree.leaf v) hf
      rw [hset]
      rfl
  | .map [] => by
      intro hg
      exact absurd hg (by simp [goodT])
  | .map ((k1, t1) :: es) => by
      intro hg A p hf
      obtain ⟨_, hnd, hge⟩ := goodT_map_parts _ hg
      simp only [goodEntries, Bool.and_eq_true] at hge
      rw [flat_map_def, walkMap_cons, foldSet_append]
      have h1 := mainT t1 hge.1.2 A (p ++ [NNote.key k1])
        (fresh_append p A [NNote.key k1] hf)
      rw [plant_snoc p A (NNote.key k1) t1 hf] at h1
      rw [show made [NNote.key k1] t1 = Tree.map [(k1, t1)] from rfl] at h1
      rw [h1]
      have hE := mainEntries es [(k1, t1)] A p (.inl hf) hge.2
        (nodupKeys_tail k1 t1 es hnd) (nodup_head_absent k1 t1 es hnd)
      rw [List.singleton_append] at hE
      exact hE
  | .arr [] => by
      intro hg
      exact absurd hg (by simp [goodT])
  | .arr (none :: a') => by
      intro hg
      exact absurd hg (by simp [goodT, goodItems])
  | .arr (some t1 :: a') => by
      intro hg A p hf
      obtain ⟨_, hgi⟩ := goodT_arr_parts _ hg
      simp only [goodItems, Bool.and_eq_true] at hgi
      rw [flat_arr_def, walkSegs_cons_some, List.flatten_cons, foldSet_append]
      have h1 := mainT t1 hgi.1 A (p ++ [NNote.idx 0])
        (fresh_append p A [NNote.idx 0] hf)
      rw [plant_snoc p A (NNote.idx 0) t1 hf] at h1
      rw [show made [NNote.idx 0] t1 = Tree.arr [some t1] from rfl] at h1
      rw [h1]
      have hI := mainItems a' [some t1] A p (.inl hf) hgi.2
      rw [show ([some t1] : List (Option Tree)).length = 1 from rfl] at hI
      rw [List.singleton_append] at hI
      exact hI

/-- Folding the remaining entries of a map keeps appending them to the planted
map. -/
theorem mainEntries : ∀ (es done : List (String × Tree)) (A : Tree)
    (p : List NNote),
    (fresh A p = true ∨ p = []) → goodEntries es = true → nodupKeys es = true →
    (∀ e ∈ es, mapFind done e.1 = none) →
    foldSet (plant A p (Tree.map done)) (walkMap false p es)
      = .ok (plant A p (Tree.map (done ++ es)))
  | [], done, A, p => by
      intro _ _ _ _
      rw [List.append_nil]
      rfl
  | (k, t) :: es', done, A, p => by
      intro hAp hge hnd hab
      simp only [goodEntries, Bool.and_eq_true] at hge
      rw [walkMap_cons, foldSet_append]
      have habK : mapFind done k = none := hab (k, t) (List.mem_cons_self _ _)
      have hO : (Tree.map done).hasOwnN (NNote.key k) = false := by
        show (mapFind done k).isSome = false
        rw [habK]
        rfl
      have hfr := fresh_plant p A (Tree.map done) (NNote.key k) hAp hO rfl
      have h1 := mainT t hge.1.2 (plant A p (Tree.map done))
        (p ++ [NNote.key k]) hfr
      rw [plant_plant p A (Tree.map done) [NNote.key k] t hAp] at h1
      have hpl : plant (Tree.map done) [NNote.key k] t
          = Tree.map (done ++ [(k, t)]) := by
        rw [plant_cons, if_neg (by rw [hO]; exact Bool.false_ne_true)]
        show Tree.map (mapSet done k t) = _
        rw [mapSet_absent done k t habK]
      rw [hpl] at h1
      rw [h1]
      have hE := mainEntries es' (done ++ [(k, t)]) A p hAp hge.2
        (nodupKeys_tail k t es' hnd)
        (fun e he => by
          rw [mapFind_append_none done [(k, t)] e.1
            (hab e (List.mem_cons_of_mem _ he))]
          exact nodup_head_absent k t es' hnd e he)
      rw [List.append_assoc, List.singleton_append] at hE
      exact hE

/-- Folding the remaining items of an array keeps appending them to the
planted array. -/
theorem mainItems : ∀ (a done : List (Option Tree)) (A : Tree)
    (p : List NNote),
    (fresh A p = true ∨ p = []) → goodItems a = true →
    foldSet (plant A p (Tree.arr done))
        ((walkArrSegs false p done.length a).flatten)
      = .ok (plant A p (Tree.arr (done ++ a)))
  | [], done, A, p => by
      intro _ _
      rw [List.append_nil]
      rfl
  | none :: a', done, A, p => by
      intro _ hgi
      exact absurd hgi (by simp [goodItems])
  | some t :: a', done, A, p => by
      intro hAp hgi
      simp only [goodItems, Bool.and_eq_true] at hgi
      rw [walkSegs_cons_some, List.flatten_cons, foldSet_append]
      have hO : (Tree.arr done).hasOwnN (NNote.idx done.length) = false :=
        hasOwn_arr_len done
      have htip : freshTip (Tree.arr done) (NNote.idx done.length) = true := by
        simp [freshTip]
      have hfr := fresh_plant p A (Tree.arr done) (NNote.idx done.length)
        hAp hO htip
      have h1 := mainT t hgi.1 (plant A p (Tree.arr done))
        (p ++ [NNote.idx done.length]) hfr
      rw [plant_plant p A (Tree.arr done) [NNote.idx done.length] t hAp] at h1
      have hpl : plant (Tree.arr done) [NNote.idx done.length] t
          = Tree.arr (done ++ [some t]) := by
        rw [plant_cons, if_neg (by rw [hO]; exact Bool.false_ne_true)]
        show Tree.arr (arrSet done done.length t) = _
        rw [arrSet_append]
      rw [hpl] at h1
      rw [h1]
      have hI := mainItems a' (done ++ [some t]) A p hAp hgi.2
      rw [show (done ++ [some t]).length = done.length + 1 by simp] at hI
      rw [List.append_assoc, List.singleton_append] at hI
      exact hI

end

/-- The full fold over a good root map rebuilds it from an empty object. -/
theorem topRT (m : List (String × Tree)) (hg : goodT (Tree.map m) = true) :
    foldSet (Tree.map []) (walkMap false [] m) = .ok (Tree.map m) := by
  obtain ⟨hne, hnd, hge⟩ := goodT_map_parts m hg
  cases m with
  | nil => exact absurd hne (by simp)
  | cons e es =>
      obtain ⟨k1, t1⟩ := e
      simp only [goodEntries, Bool.and_eq_true] at hge
      rw [walkMap_cons, foldSet_append]
      have hf1 : fresh (Tree.map []) ([] ++ [NNote.key k1]) = true := rfl
      have h1 := mainT t1 hge.1.2 (Tree.map []) ([] ++ [NNote.key k1]) hf1
      rw [show plant (Tree.map []) ([] ++ [NNote.key k1]) t1
          = Tree.map [(k1, t1)] from rfl] at h1
      rw [h1]
      have hE := mainEntries es [(k1, t1)] (Tree.map []) [] (.inr rfl) hge.2
        (nodupKeys_tail k1 t1 es hnd) (nodup_head_absent k1 t1 es hnd)
      rw [show plant (Tree.map []) [] (Tree.map [(k1, t1)])
          = Tree.map [(k1, t1)] from rfl] at hE
      rw [show plant (Tree.map []) [] (Tree.map ([(k1, t1)] ++ es))
          = Tree.map ([(k1, t1)] ++ es) from rfl] at hE
      rw [List.singleton_append] at hE
      exact hE

/-- **C3 (amended)**: `expand(flatten(source))` deep-equals the source for
every round-trippable source: an object at the root whose containers are all
non-empty, whose arrays have no holes, and whose keys are duplicate-free
identifiers (`[a-z$_][a-z$_\d]*`, case-insensitive — so the notation rendered
by `flatten` re-parses to the same path instead of making `expand` throw the
invalid-notation error) containing none of the reserved substrings
(`__proto__`, `prototype`, `constructor`).  The unamended claim fails outside
that shape — see the counterexample for an empty container, a non-identifier
key and a list root. -/
theorem claim_C3_roundtrip (T : Tree) (m : List (String × Tree))
    (hT : T = Tree.map m) (hg : goodT T = true) : roundTrip T = .ok T := by
  subst hT
  have hyp : ∀ pv ∈ walkItems false [] (Tree.map m),
      denyStr (renderPath pv.1) = false
      ∧ splitN (renderPath pv.1) = .ok pv.1 := by
    intro pv hm
    have hgf := goodFlatEntries m [] (goodT_map_parts m hg).2.2 rfl pv hm
    exact ⟨denyStr_render pv.1 hgf.1,
      splitN_render pv.1 hgf.2 (all_noteok_ident pv.1 hgf.1)⟩
  show mergeFlatS (Tree.map []) ((walkItems false [] (Tree.map m)).map
      (fun pv => (renderPath pv.1, pv.2))) = _
  rw [mergeFlatS_fold (walkItems false [] (Tree.map m)) (Tree.map []) hyp]
  show foldSet (Tree.map []) (walkMap false [] m) = _
  exact topRT m hg

/-- Witness for C3 at a concrete nested source. -/
theorem claim_C3_witness :
    goodT (Tree.map [("a", Tree.leaf (Val.num 1)),
        ("b", Tree.map [("c", Tree.leaf (Val.str "x"))]),
        ("d", Tree.arr [some (Tree.leaf (Val.num 2)),
          some (Tree.map [("e", Tree.leaf (Val.boolean true))])])]) = true
    ∧ roundTrip (Tree.map [("a", Tree.leaf (Val.num 1)),
        ("b", Tree.map [("c", Tree.leaf (Val.str "x"))]),
        ("d", Tree.arr [some (Tree.leaf (Val.num 2)),
          some (Tree.map [("e", Tree.leaf (Val.boolean true))])])])
      = .ok (Tree.map [("a", Tree.leaf (Val.num 1)),
        ("b", Tree.map [("c", Tree.leaf (Val.str "x"))]),
        ("d", Tree.arr [some (Tree.leaf (Val.num 2)),
          some (Tree.map [("e", Tree.leaf (Val.boolean true))])])]) :=
  ⟨by decide, claim_C3_roundtrip _ _ rfl (by decide)⟩

end NotaSpec
